import Mathlib

/-!
Verification of the consistency engine of the
`obsidian-consistent-attachments-and-links` plugin (fork `vlaw/...`).

The development shallowly embeds the two source modules the claims are
about:

* `src/files-handler.ts` (`FilesHandler`: `moveAttachment`,
  `collectAttachmentsForCachedNote`, `deleteEmptyFolders`,
  `isPathIgnored`, `deleteFile`), and
* the rename-cascade module (`handleRename`, `fillRenameMap`,
  `processRename`).

Paths are slash-separated strings.  The host vault is modelled as the
list of existing file paths plus the list of existing folder paths;
file contents are not modelled except for canvas containers, whose
structured node list is kept so the canvas rewrite can be verified.
Asynchronous interleaving is not modelled: the TypeScript code awaits
every host primitive and the engine is specified as the sole writer
during an operation, so each exported operation is embedded as a pure
state transformer executed atomically.

External collaborators (the Obsidian API and the `obsidian-dev-utils`
library: backlink queries, link resolution, `getAvailablePath`,
attachment-folder policy, metadata cache) are passed in as explicit
environment records, mirroring the interfaces the source calls.
-/

namespace CAL

/-! ## Path primitives

The source manipulates paths with `posix` helpers (`dirname`, `join`,
`relative`, `basename`, `extension`) and with `String.startsWith` /
slicing.  They are re-implemented here by structural recursion over the
underlying character lists so that every definition evaluates inside the
kernel. -/

/-- Split a character list at every occurrence of `sep` (the separator is
dropped; `n` separators yield `n+1` chunks, as `"a/b".split('/')` does). -/
def splitOnChar (sep : Char) : List Char → List (List Char)
  | [] => [[]]
  | x :: xs =>
    let r := splitOnChar sep xs
    if x = sep then [] :: r
    else
      match r with
      | [] => [[x]]
      | h :: t => (x :: h) :: t

/-- Join chunks back, interleaving the separator: inverse of `splitOnChar`. -/
def joinWithChar (sep : Char) : List (List Char) → List Char
  | [] => []
  | [c] => c
  | c :: cs => c ++ sep :: joinWithChar sep cs

/-- The `/`-separated segments of a path. -/
def segsOf (s : String) : List (List Char) := splitOnChar '/' s.data

/-- `posix.dirname`: everything before the last `/`, or `"."` when the
path has a single segment. -/
def dirname (s : String) : String :=
  match segsOf s with
  | [] => "."
  | [_] => "."
  | l => ⟨joinWithChar '/' l.dropLast⟩

/-- The file name: the last `/`-separated segment (TypeScript `child.name`). -/
def nameOf (s : String) : String := ⟨(segsOf s).getLastD []⟩

/-- Split a file name into (stem, extension-after-last-dot).  For a name
without a dot the extension is empty, matching `TFile.extension`. -/
def stemExt (name : List Char) : List Char × List Char :=
  match splitOnChar '.' name with
  | [] => ([], [])
  | [n] => (n, [])
  | l => (joinWithChar '.' l.dropLast, l.getLastD [])

/-- `TFile.basename`: file name without its extension. -/
def stemOf (s : String) : String := ⟨(stemExt (nameOf s).data).1⟩

/-- `TFile.extension`: the extension after the last dot, without the dot. -/
def extOf (s : String) : String := ⟨(stemExt (nameOf s).data).2⟩

/-- `posix.join` restricted to the shapes the source builds: a `"."`
second component is dropped (as `join("a", ".") = "a"`), an empty first
component yields the second. -/
def joinPath (a b : String) : String :=
  if b = "." then a else if a = "" then b else a ++ "/" ++ b

/-- Decidable `String.startsWith` over the character lists. -/
def strStarts (s pre : String) : Bool := pre.data.isPrefixOf s.data

/-- Decidable `String.endsWith` over the character lists. -/
def strEnds (s suf : String) : Bool := suf.data.isSuffixOf s.data

/-- The source repeatedly strips a leading `"./"` before comparing paths. -/
def stripDotSlash (p : String) : String :=
  if strStarts p "./" then ⟨p.data.drop 2⟩ else p

/-- `p` lies strictly inside folder `d` (it extends `d ++ "/"`). -/
def isUnder (d p : String) : Bool := strStarts p (d ++ "/")

/-- `posix.relative(d, p)` in the only situation the source uses it:
`p` is a descendant of `d`, so the result is `p` with the `d ++ "/"`
prefix removed. -/
def relativeTo (d p : String) : String := ⟨p.data.drop (d.data.length + 1)⟩

/-- `isNote` (from the vault utilities, modelled from the spec):
a file is a note exactly when its extension is a recognized markup or
canvas type (`md`, `canvas`); everything else is an attachment. -/
def isNote (p : String) : Bool := strEnds p ".md" || strEnds p ".canvas"

/-- `splitSubpath(link).linkPath`: the link target with any `#`-subpath
(heading/block anchor) removed. -/
def linkPathOf (link : String) : String := ⟨(splitOnChar '#' link.data).headD []⟩

/-! ## The vault

The host file tree at the interface the engine consumes: the set of
existing file paths and the set of existing folder paths. -/

structure Vault where
  files : List String
  folders : List String
deriving DecidableEq, Repr

def Vault.hasFile (v : Vault) (p : String) : Bool := v.files.contains p

def Vault.hasFolder (v : Vault) (d : String) : Bool := v.folders.contains d

/-- `createFolderSafe(app, d)`: ensure folder `d` exists (root needs no
creation). -/
def Vault.createFolder (v : Vault) (d : String) : Vault :=
  if d = "." ∨ d = "" ∨ v.hasFolder d then v else { v with folders := d :: v.folders }

/-- A physical rename: the file leaves its old path and appears at the
new one. -/
def Vault.renameFile (v : Vault) (o n : String) : Vault :=
  { v with files := n :: v.files.erase o }

/-- A physical copy: the content appears additionally at `dst`. -/
def Vault.copyFile (v : Vault) (dst : String) : Vault :=
  { v with files := dst :: v.files }

/-- Folder `d` has no direct children (no file and no subfolder lists it
as its parent). -/
def Vault.dirEmpty (v : Vault) (d : String) : Bool :=
  v.files.all (fun f => dirname f ≠ d) && v.folders.all (fun g => dirname g ≠ d)

/-- One upward pass of empty-folder pruning: remove `d` while it is
empty and step to its parent, stopping at the root or at the first
non-empty folder.  This models both the `while` loop in
`FilesHandler.deleteFile` and `deleteEmptyFolderHierarchy` /
`removeEmptyFolderHierarchy` from the vault utilities.  The fuel is the
path length, an upper bound on the number of ancestors. -/
def pruneStep : Nat → Vault → String → Vault
  | 0, v, _ => v
  | fuel + 1, v, d =>
    if d = "." ∨ d = "" then v
    else if v.dirEmpty d ∧ v.hasFolder d then
      pruneStep fuel { v with folders := v.folders.erase d } (dirname d)
    else v

def Vault.prune (v : Vault) (d : String) : Vault :=
  pruneStep (d.data.length + 1) v d

/-- `FilesHandler.deleteFile`: trash the file, then, when asked, prune
its now possibly empty parent hierarchy. -/
def Vault.deleteFile (v : Vault) (p : String) (pruneFolders : Bool) : Vault :=
  let v1 : Vault := { v with files := v.files.erase p }
  if pruneFolders then v1.prune (dirname p) else v1

/-! ## `FilesHandler` (src/files-handler.ts) -/

/-- `PathChangeInfo` from links-handler: one old-path/new-path pair. -/
structure PathChangeInfo where
  oldPath : String
  newPath : String
deriving DecidableEq, Repr

/-- `MovedAttachmentResult`: the record of moves and of
collision-renames an operation produced. -/
structure MovedAttachmentResult where
  movedAttachments : List PathChangeInfo
  renamedFiles : List PathChangeInfo
deriving DecidableEq, Repr

def emptyResult : MovedAttachmentResult := ⟨[], []⟩

/-- The `FilesHandler` constructor configuration.  `RegExp.test` on an
ignore pattern is modelled as a Boolean predicate on the path. -/
structure FCfg where
  ignoreFolders : List String
  ignoreFilesRegex : List (String → Bool)
  shouldDeleteEmptyFolders : Bool

/-- The metadata cache of one note, at the interface
`collectAttachmentsForCachedNote` reads: the optional `ID` frontmatter
entry and the raw targets of all links (`getAllLinks(cache)`). -/
structure NoteCache where
  frontmatterID : Option String
  links : List String

/-- External collaborators of `FilesHandler` (the LinksHandler of this
plugin — whose source is not part of the embedded modules — the
Obsidian API and `obsidian-dev-utils`), passed at the interfaces the
source calls. -/
structure FEnv where
  /-- `lh.getCachedNotesThatHaveLinkToFile(path)`: paths of the notes
  whose cache holds a link to the file. -/
  backlinks : String → List String
  /-- `getAvailablePath(app, path)`: a path equal to `path` when free,
  otherwise the next non-colliding sibling name. -/
  avail : Vault → String → String
  /-- `getCacheSafe(app, notePath)`. -/
  cacheOf : String → Option NoteCache
  /-- `extractLinkFile(app, link, notePath)`: the host's own link
  resolution; `none` when the link is broken. -/
  resolveLink : Vault → String → String → Option String
  /-- `lh.getFullPathForLink(linkPath, notePath)`. -/
  fullPathForLink : String → String → String
  /-- `getAttachmentFilePath(app, attachmentPath, notePath)`: the
  default positional attachment-path policy. -/
  attachmentFilePath : Vault → String → String → String
  /-- The attachment folder used by `getCustomizedNewPath` (computed
  there from `app.vault.getConfig('attachmentFolderPath')`, the note's
  parent and `getParentPrefix`, all host state outside this model). -/
  customAttachmentFolder : Vault → String → String
  /-- The md5 content hash of the attachment bytes
  (`generateValidBaseName`); contents are not modelled, only the
  resulting hash string. -/
  contentHash : Vault → String → String

/-- `FilesHandler.isPathIgnored`. -/
def isPathIgnored (cfg : FCfg) (path : String) : Bool :=
  let p := stripDotSlash path
  cfg.ignoreFolders.any (fun folder => strStarts p folder)
    || cfg.ignoreFilesRegex.any (fun re => re p)

/-- `FilesHandler.getCustomizedNewPath`: content-addressed target,
`join(attachmentFolderPath, id, hash ++ "." ++ ext)`. -/
def getCustomizedNewPath (env : FEnv) (v : Vault) (notePath attPath id : String) : String :=
  joinPath (joinPath (env.customAttachmentFolder v notePath) id)
    (env.contentHash v attPath ++ "." ++ extOf attPath)

/-- `FilesHandler.moveAttachment`.  `filePath` is the current path of
the `TFile`; in this sequential model `path === file.path` always holds,
so the `File was moved already` re-entry guard of the source is
vacuously skipped.  `Array.prototype.remove` (Obsidian's augmentation)
is modelled as removing every occurrence. -/
def moveAttachment (cfg : FCfg) (env : FEnv) (v : Vault) (filePath newLinkPath : String)
    (parentNotePaths : List String) (deleteExistFiles pruneFolders : Bool) :
    MovedAttachmentResult × Vault :=
  let path := filePath
  if isPathIgnored cfg path then (emptyResult, v)
  else if isNote path then (emptyResult, v)   -- `!this.isAttachment(file)`
  else if path = newLinkPath then (emptyResult, v)   -- warn: same source and destination
  else
    let v1 := v.createFolder (dirname newLinkPath)
    let linkedNotes := (env.backlinks path).filter (fun n => ¬ parentNotePaths.contains n)
    let oldFolder := dirname path
    let rv :=
      if linkedNotes.isEmpty then
        if ¬ v1.hasFile newLinkPath then
          -- exclusive link, target free: move, record the move
          (⟨[⟨path, newLinkPath⟩], []⟩, v1.renameFile path newLinkPath)
        else if deleteExistFiles then
          -- exclusive link, target occupied, may delete: delete source, record the move
          (⟨[⟨path, newLinkPath⟩], []⟩, v1.deleteFile path pruneFolders)
        else
          -- exclusive link, target occupied, keep: move to a fresh sibling, record both
          let u := env.avail v1 newLinkPath
          (⟨[⟨path, u⟩], [⟨newLinkPath, u⟩]⟩, v1.renameFile path u)
      else
        if ¬ v1.hasFile newLinkPath then
          -- shared link, target free: copy, leave the original
          (⟨[⟨path, newLinkPath⟩], []⟩, v1.copyFile newLinkPath)
        else if ¬ deleteExistFiles then
          -- shared link, target occupied, keep: move to a fresh sibling,
          -- copy it back to the original path, record both
          let u := env.avail v1 newLinkPath
          (⟨[⟨path, u⟩], [⟨newLinkPath, u⟩]⟩, (v1.renameFile path u).copyFile path)
        else
          -- shared link, target occupied, may delete: no file operation,
          -- but the attachment is still recorded as moved to the target
          (⟨[⟨path, newLinkPath⟩], []⟩, v1)
    let v3 := if cfg.shouldDeleteEmptyFolders then rv.2.prune oldFolder else rv.2
    (rv.1, v3)

/-- State threaded through `collectAttachmentsForCachedNote`: the vault
plus the `Notice` pop-ups raised. -/
structure FState where
  vault : Vault
  notices : List String
deriving Repr

/-- One iteration of the link loop of
`collectAttachmentsForCachedNote`. -/
def collectStep (cfg : FCfg) (env : FEnv) (notePath : String)
    (deleteExistFiles pruneFolders customized : Bool) (id : String)
    (acc : MovedAttachmentResult × FState) (link : String) :
    MovedAttachmentResult × FState :=
  let (result, st) := acc
  let linkPath := linkPathOf link
  if linkPath = "" then acc
  else
    let fullPathLink := env.fullPathForLink linkPath notePath
    if result.movedAttachments.any (fun x => x.oldPath = fullPathLink) then acc
    else
      match env.resolveLink st.vault link notePath with
      | none => acc   -- warn: bad link/embed, file does not exist
      | some filePath =>
        if isNote filePath then acc   -- `!this.isAttachment(file)`
        else
          let newPath :=
            if ¬ customized then env.attachmentFilePath st.vault filePath notePath
            else getCustomizedNewPath env st.vault notePath filePath id
          let (res, v2) := moveAttachment cfg env st.vault filePath newPath [notePath]
            deleteExistFiles pruneFolders
          (⟨result.movedAttachments ++ res.movedAttachments,
            result.renamedFiles ++ res.renamedFiles⟩, { st with vault := v2 })

/-- `FilesHandler.collectAttachmentsForCachedNote`.  A missing or empty
(JavaScript-falsy) `ID` frontmatter entry raises a `Notice` and aborts
before the link loop, in every naming mode. -/
def collectAttachmentsForCachedNote (cfg : FCfg) (env : FEnv) (st : FState)
    (notePath : String) (deleteExistFiles pruneFolders customized : Bool) :
    MovedAttachmentResult × FState :=
  if isPathIgnored cfg notePath then (emptyResult, st)
  else
    match env.cacheOf notePath with
    | none => (emptyResult, st)
    | some cache =>
      if cache.frontmatterID.getD "" = "" then
        (emptyResult,
          { st with notices := ("Missing ID in frontmatter of " ++ notePath) :: st.notices })
      else
        cache.links.foldl
          (collectStep cfg env notePath deleteExistFiles pruneFolders customized
            (cache.frontmatterID.getD ""))
          (emptyResult, st)

/-! ## Insertion-ordered maps

A JavaScript `Map<string, string>` as the rename map uses it: an
insertion-ordered association list; `set` on an existing key updates the
value in place, `delete` removes the single entry of a key, iteration is
in insertion order. -/

def lookupEntry : List (String × String) → String → Option String
  | [], _ => none
  | (k, v) :: t, key => if key = k then some v else lookupEntry t key

def setEntry : List (String × String) → String → String → List (String × String)
  | [], k, v => [(k, v)]
  | (k1, v1) :: t, k, v =>
    if k = k1 then (k, v) :: t else (k1, v1) :: setEntry t k v

def eraseKey : List (String × String) → String → List (String × String)
  | [], _ => []
  | (k1, v1) :: t, k => if k = k1 then t else (k1, v1) :: eraseKey t k

def keysOf (m : List (String × String)) : List String := m.map Prod.fst

/-! ## The rename cascade module

`handleRename` / `fillRenameMap` / `processRename` and the module-level
`renameMap`. -/

/-- A node of a canvas container.  `ntype` is the node's `type` field;
`file` its `file` field (unused when the node is not a file node);
`extra` stands for every other serialized field of the node. -/
structure CNode where
  ntype : String
  file : String
  extra : String
deriving DecidableEq, Repr

/-- Parsed canvas data: the `nodes` array plus `extra` for every field
outside it (edges and so on). -/
structure CanvasData where
  nodes : List CNode
  extra : String
deriving DecidableEq, Repr

/-- The canvas rewrite `processRename` performs under
`processWithRetry`: for every node of type `"file"` replace a `file`
field found in the rename map by its mapped path.  A JavaScript-falsy
mapped value (the empty string) is skipped by the `if (!newPath)`
guard. -/
def renameCanvasData (m : List (String × String)) (d : CanvasData) : CanvasData :=
  { d with nodes := d.nodes.map (fun nd =>
      if nd.ntype ≠ "file" then nd
      else
        match lookupEntry m nd.file with
        | none => nd
        | some p => if p = "" then nd else { nd with file := p }) }

/-- The state of the cascade module: the module-level `renameMap`, the
vault, the parsed contents of canvas files, the list of documents whose
text was patched (`applyFileChanges` / `updateLinksInFile` — the text
itself is outside the model), and the console log. -/
structure RState where
  map : List (String × String)
  vault : Vault
  canvas : List (String × CanvasData)
  edits : List String
  logs : List String

/-- External collaborators of the cascade module. -/
structure REnv where
  /-- `getAttachmentFolderPath(app, notePath)`: the attachment-folder
  policy, an external collaborator (its repository source is not among
  the embedded modules; the spec specifies only
  `attachmentFolderFor(notePath) → path`). -/
  attFolder : String → String
  /-- `app.vault.getAvailablePath(pathWithoutExtension, extension)`. -/
  avail : Vault → String → String → String
  /-- `app.metadataCache.getBacklinksForFile(file).keys()`: the paths of
  the documents holding links to the file. -/
  backlinks : Vault → String → List String

def lookupCanvas : List (String × CanvasData) → String → Option CanvasData
  | [], _ => none
  | (k, v) :: t, key => if key = k then some v else lookupCanvas t key

def setCanvas : List (String × CanvasData) → String → CanvasData → List (String × CanvasData)
  | [], k, v => [(k, v)]
  | (k1, v1) :: t, k, v =>
    if k = k1 then (k, v) :: t else (k1, v1) :: setCanvas t k v

/-- A physical rename keeps the file's content: re-key its canvas data. -/
def moveCanvasKey (c : List (String × CanvasData)) (o n : String) : List (String × CanvasData) :=
  match lookupCanvas c o with
  | none => c
  | some d => setCanvas (c.filter (fun e => e.1 ≠ o)) n d

/-- `fillRenameMap(app, file, oldPath)`: seed `oldPath → file.path`;
for a note whose old attachment folder exists and differs from the new
one, add an entry for every non-note file found under the old folder,
re-rooted under the new folder, using
`getAvailablePath(join(newDir, basename), extension)` when the plain
re-rooted path differs from the child's current path.
`Vault.recurseChildren` is modelled as filtering the vault's files by
the folder prefix. -/
def fillRenameMap (env : REnv) (s : RState) (filePath oldPath : String) : RState :=
  let m0 := setEntry s.map oldPath filePath
  if ¬ isNote filePath then { s with map := m0 }
  else
    let oldAF := env.attFolder oldPath
    let newAF := env.attFolder filePath
    if ¬ s.vault.hasFolder oldAF then { s with map := m0 }
    else if oldAF = newAF then { s with map := m0 }
    else
      let children := s.vault.files.filter (fun c => isUnder oldAF c)
      let m := children.foldl (fun m c =>
        if isNote c then m
        else
          let rel := relativeTo oldAF c
          let newDir := joinPath newAF (dirname rel)
          let newChildPath := joinPath newDir (nameOf c)
          if c = newChildPath then m
          else setEntry m c (env.avail s.vault (joinPath newDir (stemOf c)) (extOf c))) m0
      { s with map := m }

/-- The backlink-rewrite pass of `processRename`: for each document
referencing the file, resolve it (through the rename map when it was
itself already moved), log an error when it cannot be found, otherwise
apply its batched text patch (recorded in `edits`). -/
def backlinkPass (env : REnv) (fpath : String) (s : RState) : RState :=
  (env.backlinks s.vault fpath).foldl (fun st pn =>
    if st.vault.hasFile pn then { st with edits := pn :: st.edits }
    else
      match lookupEntry st.map pn with
      | some pn2 =>
        if st.vault.hasFile pn2 then { st with edits := pn2 :: st.edits }
        else { st with logs := ("Parent note not found: " ++ pn) :: st.logs }
      | none => { st with logs := ("Parent note not found: " ++ pn) :: st.logs }) s

/-- The container pass of `processRename`: a canvas file gets its node
file references rewritten through the rename map; a markdown file gets
its own links updated (`updateLinksInFile`, recorded as an edit). -/
def containerPass (fpath : String) (s : RState) : RState :=
  if extOf fpath = "canvas" then
    match lookupCanvas s.canvas fpath with
    | none => s
    | some d => { s with canvas := setCanvas s.canvas fpath (renameCanvasData s.map d) }
  else if extOf fpath = "md" then { s with edits := fpath :: s.edits }
  else s

/-- `processRename(app, oldPath, newPath)`.  When neither path resolves
to a live file the entry is skipped silently (the source returns without
logging).  When a file still exists at `oldPath` the destination folder
is created, the physical rename is performed — `app.vault.rename` throws
when the destination is already occupied, modelled as `Except.error`
carrying the state — the entry is removed from the rename map and the
old parent hierarchy pruned. -/
def processRename (env : REnv) (s : RState) (oldPath newPath : String) :
    Except RState RState :=
  let oldEx := s.vault.hasFile oldPath
  let newEx := s.vault.hasFile newPath
  if ¬ oldEx ∧ ¬ newEx then .ok s
  else
    let fpath := if oldEx then oldPath else newPath
    let s1 := backlinkPass env fpath s
    let s2 := containerPass fpath s1
    if oldEx then
      let s3 := { s2 with vault := s2.vault.createFolder (dirname newPath) }
      if s3.vault.hasFile newPath then .error s3
      else
        let oldFolder := dirname oldPath
        let s4 : RState :=
          { s3 with
            vault := (s3.vault.renameFile oldPath newPath).prune oldFolder
            canvas := moveCanvasKey s3.canvas oldPath newPath
            map := eraseKey s3.map oldPath }
        .ok s4
    else .ok s2

/-- The entry loop of `handleRename`, over a snapshot of the map's
entries (`processRename` only ever deletes the entry being processed,
which cannot affect the iteration of the remaining ones).  The Boolean
records whether a step threw. -/
def processLoop (env : REnv) : List (String × String) → RState → RState × Bool
  | [], s => (s, false)
  | (o, n) :: rest, s =>
    match processRename env s o n with
    | .ok s1 => processLoop env rest s1
    | .error s1 => (s1, true)

/-- `handleRename(plugin, file, oldPath)`: while the module-level map is
non-empty the notification returns immediately; otherwise the cascade is
built and executed, and the `finally` block deletes the seed key —
and only the seed key — whether or not a step threw. -/
def handleRename (env : REnv) (s : RState) (filePath oldPath : String) : RState × Bool :=
  if ¬ s.map.isEmpty then (s, false)
  else
    let s1 := fillRenameMap env s filePath oldPath
    let (s2, err) := processLoop env s1.map s1
    ({ s2 with map := eraseKey s2.map oldPath }, err)

/-! ## `FilesHandler.deleteEmptyFolders`

The recursive empty-folder sweep walks the tree through `listSafe`, so
it is embedded over an explicit directory tree: a folder is its list of
child file names and its named subfolders.  `rmdir` can fail; whether a
failed `rmdir` left the folder behind (`errStay`) or raced with a
concurrent removal (`errGone`, the `adapter.exists` re-check then
reports the folder gone) is an environment oracle keyed by path. -/

mutual
inductive Dir : Type where
  | node (files : List String) (subs : Forest) : Dir
inductive Forest : Type where
  | nil : Forest
  | cons (name : String) (d : Dir) (rest : Forest) : Forest
end

inductive RmOut where
  | ok : RmOut
  | errGone : RmOut
  | errStay : RmOut
deriving DecidableEq, Repr

def Forest.isNil : Forest → Bool
  | .nil => true
  | .cons _ _ _ => false

mutual
/-- `deleteEmptyFolders(dirName)` on an existing folder: skip ignored
paths, strip a leading `"./"`, recursively sweep the subfolders, re-list,
and when no file and no subfolder remains attempt `rmdir`; a thrown
`rmdir` error is re-thrown exactly when the folder still exists.
Returns the folder's new state, `none` when it was removed. -/
def delDir (cfg : FCfg) (rm : String → RmOut) (path : String) (d : Dir) :
    Except Unit (Option Dir) :=
  if isPathIgnored cfg path then .ok (some d)
  else
    let p := stripDotSlash path
    match d with
    | .node fs subs =>
      match delForest cfg rm p subs with
      | .error e => .error e
      | .ok subs1 =>
        if fs.isEmpty ∧ subs1.isNil then
          match rm p with
          | .ok => .ok none
          | .errGone => .ok none
          | .errStay => .error ()
        else .ok (some (.node fs subs1))
/-- The `for (const folder of list.folders)` loop: sweep each subfolder
in order, aborting on a thrown error, dropping removed subfolders. -/
def delForest (cfg : FCfg) (rm : String → RmOut) (path : String) :
    Forest → Except Unit Forest
  | .nil => .ok .nil
  | .cons nm d rest =>
    match delDir cfg rm (path ++ "/" ++ nm) d with
    | .error e => .error e
    | .ok none => delForest cfg rm path rest
    | .ok (some d1) =>
      match delForest cfg rm path rest with
      | .error e => .error e
      | .ok rest1 => .ok (.cons nm d1 rest1)
end

/-- `deleteEmptyFolders` including the nonexistent-path case: a path
that does not exist lists no children and fails the `exists` check
before `rmdir`, so the sweep returns without error — already pruned. -/
def deleteEmptyFolders (cfg : FCfg) (rm : String → RmOut) (path : String) :
    Option Dir → Except Unit (Option Dir)
  | none => .ok none
  | some d => delDir cfg rm path d

mutual
/-- The folder holds no file anywhere in its subtree (so the sweep
should fully remove it). -/
def dirNoFiles : Dir → Bool
  | .node fs subs => fs.isEmpty && forestNoFiles subs
def forestNoFiles : Forest → Bool
  | .nil => true
  | .cons _ d rest => dirNoFiles d && forestNoFiles rest
end

/-! ## Auxiliary definitions for interface hypotheses and instances -/

/-- Every `/`-segment of the path is nonempty and not `"."` — the shape
of every real vault path (no doubled, leading or trailing slash, no
`"."` component). -/
def pathOk (s : String) : Bool :=
  (segsOf s).all (fun seg => ¬ seg.isEmpty ∧ seg ≠ ['.'])

/-- Concatenation of a list of strings. -/
def strConcat : List String → String
  | [] => ""
  | s :: t => s ++ strConcat t

/-- A generator of paths fresh for the given vault: the result is longer
than every existing file path, hence distinct from all of them.  Used to
instantiate the external `getAvailablePath` contract in witnesses. -/
def freshJoin (v : Vault) (p : String) : String := "#" ++ strConcat v.files ++ p

/-- A `getAvailablePath(app, pathNoExt, ext)` instance satisfying the
external contract: the plain path when free, otherwise a fresh path. -/
def availInstance (v : Vault) (b e : String) : String :=
  if v.hasFile (b ++ "." ++ e) then freshJoin v (b ++ "." ++ e) else b ++ "." ++ e

/-- Obsidian's own `getAvailablePath` numbering: try `base.ext`, then
`base 1.ext`, `base 2.ext`, … and return the first free candidate (the
fuel, one more than the number of files, guarantees one is found). -/
def availSearch (v : Vault) (b e : String) : Nat → Nat → String
  | 0, _ => b ++ "." ++ e
  | fuel + 1, i =>
    let cand := if i = 0 then b ++ "." ++ e else b ++ " " ++ Nat.repr i ++ "." ++ e
    if v.hasFile cand then availSearch v b e fuel (i + 1) else cand

def availWithNumber (v : Vault) (b e : String) : String :=
  availSearch v b e (v.files.length + 1) 0

/-- Configuration with no ignore patterns and no folder pruning. -/
def cfg0 : FCfg := ⟨[], [], false⟩

/-- Configuration that ignores the folder hierarchy `ig`. -/
def cfgIg : FCfg := ⟨["ig"], [], false⟩

/-- An inert `FilesHandler` environment; individual instances override
the fields a scenario depends on. -/
def fenv0 : FEnv :=
  { backlinks := fun _ => []
    avail := fun _ p => p ++ "+1"
    cacheOf := fun _ => none
    resolveLink := fun _ _ _ => none
    fullPathForLink := fun l _ => l
    attachmentFilePath := fun _ _ _ => "att/img.png"
    customAttachmentFolder := fun _ _ => "catt"
    contentHash := fun _ _ => "hash" }

/-- An inert cascade environment. -/
def renv0 : REnv :=
  { attFolder := fun _ => "AF"
    avail := fun v b e => availInstance v b e
    backlinks := fun _ _ => [] }

/-- An empty cascade state over the given vault. -/
def rstate (v : Vault) (m : List (String × String)) : RState :=
  { map := m, vault := v, canvas := [], edits := [], logs := [] }

/-- The scenario refuting C1: `a/img.png` is also linked from another
note, the target `t/img.png` exists, and deletion on collision is
allowed — the shared branch with an existing target. -/
def fenvC1 : FEnv := { fenv0 with backlinks := fun _ => ["other.md"] }

def vaultC1 : Vault := ⟨["a/img.png", "t/img.png"], ["a", "t"]⟩

/-- The cascade environment of the C4 refutation: renaming `f.md` to
`g.md` moves the attachment folder `F` to `G`. -/
def renvC4 : REnv :=
  { attFolder := fun p => if p = "f.md" then "F" else "G"
    avail := fun v b e => availWithNumber v b e
    backlinks := fun _ _ => [] }

/-- The vault of the C4 refutation: the note already renamed to `g.md`,
two attachments under `F`, and `G/b.png` already occupied so that both
pending attachments compute the same available target `G/b 1.png`. -/
def vaultC4 : Vault := ⟨["g.md", "F/b.png", "F/b 1.png", "G/b.png"], ["F", "G"]⟩

/-- The note cache of the C6/C10 scenarios, with and without the `ID`
frontmatter entry. -/
def cacheNoID : NoteCache := ⟨none, ["img.png"]⟩

def cacheWithID : NoteCache := ⟨some "x", ["img.png"]⟩

/-- The `FilesHandler` environment of the C6 refutation: one resolvable
attachment link. -/
def fenvC6 (c : NoteCache) : FEnv :=
  { fenv0 with
    cacheOf := fun np => if np = "n.md" then some c else none
    resolveLink := fun v l _ => if l = "img.png" ∧ v.hasFile "img.png" then some "img.png" else none }

def stC6 : FState := ⟨⟨["n.md", "img.png"], []⟩, []⟩

/-- The environment of the C10 refutation: two different link texts
(`img.png` and `./img.png`) resolve — through the host's shortest-path
search — to the same file `sub/img.png`, while
`lh.getFullPathForLink` computes two different naive full paths. -/
def fenvC10 : FEnv :=
  { fenv0 with
    cacheOf := fun np => if np = "n.md" then some ⟨some "i", ["img.png", "./img.png"]⟩ else none
    resolveLink := fun v l _ =>
      if (l = "img.png" ∨ l = "./img.png") ∧ v.hasFile "sub/img.png" then some "sub/img.png" else none
    attachmentFilePath := fun _ _ _ => "n/img.png"
    backlinks := fun p => if p = "sub/img.png" then ["other.md"] else [] }

def stC10 : FState := ⟨⟨["n.md", "sub/img.png"], ["sub"]⟩, []⟩

/-- An environment satisfying the exact-resolution hypothesis of the
amended C10: link resolution returns precisely the naive full path. -/
def fenvC10w : FEnv :=
  { fenv0 with
    cacheOf := fun np => if np = "n.md" then some ⟨some "i", ["img.png", "img.png"]⟩ else none
    resolveLink := fun v l _ => if v.hasFile (linkPathOf l) then some (linkPathOf l) else none }

/-- A cascade state holding one canvas file with a file node pointing at
a mapped path, for exercising the canvas rewrite. -/
def sC7 : RState :=
  { map := [("a.png", "b.png")]
    vault := ⟨["c.canvas"], []⟩
    canvas := [("c.canvas", ⟨[⟨"file", "a.png", "x"⟩, ⟨"text", "t", "y"⟩], "E"⟩)]
    edits := []
    logs := [] }

/-- A cascade environment whose `getAvailablePath` instance satisfies
the external contract: the plain path when free, a fresh path
otherwise.  Renaming `old.md` to `new.md` moves attachment folder `OF`
to `NF`. -/
def fenvC2 : REnv :=
  { attFolder := fun p => if p = "old.md" then "OF" else "NF"
    avail := fun v b e =>
      if v.hasFile (b ++ "." ++ e) then freshJoin v (b ++ "." ++ e) else b ++ "." ++ e
    backlinks := fun _ _ => [] }

/-- The vault of the C2 witness: the renamed note and one attachment in
the old attachment folder. -/
def sC2 : RState := rstate ⟨["new.md", "OF/b.png"], ["OF"]⟩ []

/-! ## General lemmas about the vault model -/

theorem hasFile_iff (v : Vault) (p : String) : v.hasFile p = true ↔ p ∈ v.files := by
  simp [Vault.hasFile]

theorem hasFile_false_iff (v : Vault) (p : String) : v.hasFile p = false ↔ p ∉ v.files := by
  simp [Vault.hasFile]

theorem createFolder_files (v : Vault) (d : String) : (v.createFolder d).files = v.files := by
  unfold Vault.createFolder; split <;> rfl

theorem pruneStep_files (fuel : Nat) (v : Vault) (d : String) :
    (pruneStep fuel v d).files = v.files := by
  induction fuel generalizing v d with
  | zero => rfl
  | succ n ih => unfold pruneStep; split; · rfl
                 split; · exact ih _ _
                 rfl

theorem prune_files (v : Vault) (d : String) : (v.prune d).files = v.files :=
  pruneStep_files _ v d

/-- A folder removed by a pruning pass had no child file (file paths are
unchanged by pruning, so emptiness is judged against the same file
list). -/
theorem pruneStep_removed_empty (fuel : Nat) (v : Vault) (d0 d : String)
    (hmem : d ∈ v.folders) (hgone : d ∉ (pruneStep fuel v d0).folders) :
    ∀ f ∈ v.files, dirname f ≠ d := by
  induction fuel generalizing v d0 with
  | zero => exact absurd hmem hgone
  | succ n ih =>
    unfold pruneStep at hgone
    split at hgone
    · exact absurd hmem hgone
    split at hgone
    · rename_i hcond
      by_cases hd : d = d0
      · subst hd
        intro f hf
        have hemp := hcond.1
        simp only [Vault.dirEmpty, Bool.and_eq_true, List.all_eq_true] at hemp
        have := hemp.1 f hf
        simpa using this
      · exact ih { v with folders := v.folders.erase d0 } (dirname d0)
          ((List.mem_erase_of_ne hd).mpr hmem) hgone
    · exact absurd hmem hgone

theorem prune_removed_empty (v : Vault) (d0 d : String)
    (hmem : d ∈ v.folders) (hgone : d ∉ (v.prune d0).folders) :
    ∀ f ∈ v.files, dirname f ≠ d :=
  pruneStep_removed_empty _ v d0 d hmem hgone

/-- Pruning keeps every folder that still has a file child. -/
theorem prune_keeps_nonempty (v : Vault) (d0 d : String)
    (hmem : d ∈ v.folders) (f : String) (hf : f ∈ v.files) (hdf : dirname f = d) :
    d ∈ (v.prune d0).folders := by
  by_contra hgone
  exact prune_removed_empty v d0 d hmem hgone f hf hdf

theorem createFolder_mem (v : Vault) (d : String) (hd : d ≠ ".") (hd2 : d ≠ "") :
    d ∈ (v.createFolder d).folders := by
  unfold Vault.createFolder
  split
  · rename_i h
    rcases h with h | h | h
    · exact absurd h hd
    · exact absurd h hd2
    · simpa [Vault.hasFolder] using h
  · exact List.mem_cons_self _ _

/-! ## Claim C9 — ignored paths are excluded from all processing -/

/-- C9: for a path matching a configured ignore folder prefix or ignore
filename pattern, `moveAttachment` and `collectAttachmentsForCachedNote`
return the empty result and leave the vault (and the whole state)
untouched. -/
theorem ignored_paths_are_noops (cfg : FCfg) (env : FEnv) (v : Vault) (st : FState)
    (path newLinkPath notePath : String) (parents : List String) (de pf cu : Bool)
    (h1 : isPathIgnored cfg path = true) (h2 : isPathIgnored cfg notePath = true) :
    moveAttachment cfg env v path newLinkPath parents de pf = (emptyResult, v)
    ∧ collectAttachmentsForCachedNote cfg env st notePath de pf cu = (emptyResult, st) := by
  constructor
  · unfold moveAttachment; simp [h1]
  · unfold collectAttachmentsForCachedNote; simp [h2]

theorem ignored_paths_are_noops_witness :
    moveAttachment cfgIg fenv0 ⟨["ig/a.png"], ["ig"]⟩ "ig/a.png" "t/a.png" [] false false
      = (emptyResult, ⟨["ig/a.png"], ["ig"]⟩)
    ∧ collectAttachmentsForCachedNote cfgIg fenv0 ⟨⟨["ig/n.md"], ["ig"]⟩, []⟩ "ig/n.md" false false false
      = (emptyResult, ⟨⟨["ig/n.md"], ["ig"]⟩, []⟩) :=
  ignored_paths_are_noops cfgIg fenv0 ⟨["ig/a.png"], ["ig"]⟩ ⟨⟨["ig/n.md"], ["ig"]⟩, []⟩
    "ig/a.png" "t/a.png" "ig/n.md" [] false false false (by decide) (by decide)

/-! ## Claim C3 — rename notifications during a cascade -/

/-- C3 counterexample: with a cascade in progress (non-empty rename
map), a rename notification for `c → d` is not folded into the map — the
state is returned entirely unchanged and the map holds no entry for the
renamed file.  This refutes the claim that every such notification is
merged into the existing map rather than discarded. -/
theorem busy_rename_discarded_counterexample :
    handleRename renv0 (rstate ⟨["b", "c"], []⟩ [("a", "b")]) "d" "c"
      = (rstate ⟨["b", "c"], []⟩ [("a", "b")], false)
    ∧ lookupEntry ((handleRename renv0 (rstate ⟨["b", "c"], []⟩ [("a", "b")]) "d" "c").1.map) "c"
      = none := by
  constructor <;> rfl

/-- C3 amended: while the rename map is non-empty, `handleRename`
returns immediately and changes nothing — no nested cascade starts and
nothing is added to the map.  Notifications caused by the cascade's own
physical moves are exactly those whose old path is already a key of the
map, so they are accounted for by the entry that produced them; any
other notification arriving in the window is silently dropped. -/
theorem busy_rename_is_noop (env : REnv) (s : RState) (filePath oldPath : String)
    (h : s.map ≠ []) : handleRename env s filePath oldPath = (s, false) := by
  unfold handleRename
  simp [List.isEmpty_iff, h]

theorem busy_rename_is_noop_witness :
    handleRename renv0 (rstate ⟨[], []⟩ [("a", "b")]) "x" "y"
      = (rstate ⟨[], []⟩ [("a", "b")], false) :=
  busy_rename_is_noop renv0 (rstate ⟨[], []⟩ [("a", "b")]) "x" "y" (by decide)

/-! ## Claim C1 — the conflict table of `moveAttachment` -/

theorem hasFile_createFolder (v : Vault) (d p : String) :
    (v.createFolder d).hasFile p = v.hasFile p := by
  unfold Vault.hasFile
  rw [createFolder_files]

theorem pruneIf_files (c : Bool) (w : Vault) (d : String) :
    (if c = true then w.prune d else w).files = w.files := by
  split
  · exact prune_files w d
  · rfl

theorem deleteFile_files (w : Vault) (p : String) (b : Bool) :
    (w.deleteFile p b).files = w.files.erase p := by
  unfold Vault.deleteFile
  split
  · exact prune_files _ _
  · rfl

/-- C1 counterexample: a shared attachment (`other.md` also links to
it), an occupied target, and `deleteExistFiles = true`.  The vault is
indeed untouched, but the outcome is not the no-op the conflict table
specifies: the attachment is recorded as moved to the target, so a
change is recorded. -/
theorem shared_collision_delete_counterexample :
    (moveAttachment cfg0 fenvC1 vaultC1 "a/img.png" "t/img.png" ["n.md"] true false).1.movedAttachments
      = [⟨"a/img.png", "t/img.png"⟩]
    ∧ (moveAttachment cfg0 fenvC1 vaultC1 "a/img.png" "t/img.png" ["n.md"] true false).2.files
      = vaultC1.files := by
  constructor <;> rfl

/-- C1 amended: the six (shared × collision × deleteExisting) outcomes
of `moveAttachment`, as the code implements them.  They match the 4.4
table except in the shared/collision/delete case, which performs no file
operation but still records the attachment as moved to the existing
target (so the processing note's link gets rewritten); it does not
record nothing.  `hfresh` is the contract of the external
`getAvailablePath`: the generated sibling name is not an existing
file. -/
theorem moveAttachment_conflict_table
    (cfg : FCfg) (env : FEnv) (v : Vault) (path newLink : String)
    (parents : List String) (del pf : Bool)
    (hig : isPathIgnored cfg path = false)
    (hatt : isNote path = false)
    (hne : path ≠ newLink)
    (hmem : path ∈ v.files)
    (hnd : v.files.Nodup)
    (hfresh : env.avail (v.createFolder (dirname newLink)) newLink ∉ v.files) :
    (((env.backlinks path).filter (fun x => ¬ parents.contains x)).isEmpty = true →
      v.hasFile newLink = false →
      (moveAttachment cfg env v path newLink parents del pf).1 = ⟨[⟨path, newLink⟩], []⟩
      ∧ newLink ∈ (moveAttachment cfg env v path newLink parents del pf).2.files
      ∧ path ∉ (moveAttachment cfg env v path newLink parents del pf).2.files)
    ∧ (((env.backlinks path).filter (fun x => ¬ parents.contains x)).isEmpty = true →
      v.hasFile newLink = true → del = true →
      (moveAttachment cfg env v path newLink parents del pf).1 = ⟨[⟨path, newLink⟩], []⟩
      ∧ newLink ∈ (moveAttachment cfg env v path newLink parents del pf).2.files
      ∧ path ∉ (moveAttachment cfg env v path newLink parents del pf).2.files)
    ∧ (((env.backlinks path).filter (fun x => ¬ parents.contains x)).isEmpty = true →
      v.hasFile newLink = true → del = false →
      (moveAttachment cfg env v path newLink parents del pf).1
        = ⟨[⟨path, env.avail (v.createFolder (dirname newLink)) newLink⟩],
           [⟨newLink, env.avail (v.createFolder (dirname newLink)) newLink⟩]⟩
      ∧ env.avail (v.createFolder (dirname newLink)) newLink
          ∈ (moveAttachment cfg env v path newLink parents del pf).2.files
      ∧ newLink ∈ (moveAttachment cfg env v path newLink parents del pf).2.files
      ∧ path ∉ (moveAttachment cfg env v path newLink parents del pf).2.files)
    ∧ (((env.backlinks path).filter (fun x => ¬ parents.contains x)).isEmpty = false →
      v.hasFile newLink = false →
      (moveAttachment cfg env v path newLink parents del pf).1 = ⟨[⟨path, newLink⟩], []⟩
      ∧ newLink ∈ (moveAttachment cfg env v path newLink parents del pf).2.files
      ∧ path ∈ (moveAttachment cfg env v path newLink parents del pf).2.files)
    ∧ (((env.backlinks path).filter (fun x => ¬ parents.contains x)).isEmpty = false →
      v.hasFile newLink = true → del = false →
      (moveAttachment cfg env v path newLink parents del pf).1
        = ⟨[⟨path, env.avail (v.createFolder (dirname newLink)) newLink⟩],
           [⟨newLink, env.avail (v.createFolder (dirname newLink)) newLink⟩]⟩
      ∧ env.avail (v.createFolder (dirname newLink)) newLink
          ∈ (moveAttachment cfg env v path newLink parents del pf).2.files
      ∧ newLink ∈ (moveAttachment cfg env v path newLink parents del pf).2.files
      ∧ path ∈ (moveAttachment cfg env v path newLink parents del pf).2.files)
    ∧ (((env.backlinks path).filter (fun x => ¬ parents.contains x)).isEmpty = false →
      v.hasFile newLink = true → del = true →
      (moveAttachment cfg env v path newLink parents del pf).1 = ⟨[⟨path, newLink⟩], []⟩
      ∧ (moveAttachment cfg env v path newLink parents del pf).2.files = v.files) := by
  have hpe : path ∉ v.files.erase path := List.Nodup.not_mem_erase hnd
  have hpu : path ≠ env.avail (v.createFolder (dirname newLink)) newLink :=
    fun h => hfresh (h ▸ hmem)
  have hnl : newLink ≠ path := fun h => hne h.symm
  refine ⟨?_, ?_, ?_, ?_, ?_, ?_⟩
  · intro hE hColl
    simp only [moveAttachment, hig, hatt, hne, hasFile_createFolder, hE, hColl]
    simp [pruneIf_files, createFolder_files, Vault.renameFile, hpe, hne]
  · intro hE hColl hdel
    have h1 : newLink ∈ v.files.erase path :=
      (List.mem_erase_of_ne hnl).mpr ((hasFile_iff v newLink).mp hColl)
    simp only [moveAttachment, hig, hatt, hne, hasFile_createFolder, hE, hColl, hdel]
    simp [pruneIf_files, createFolder_files, deleteFile_files, hpe, h1]
  · intro hE hColl hdel
    have h1 : newLink ∈ v.files.erase path :=
      (List.mem_erase_of_ne hnl).mpr ((hasFile_iff v newLink).mp hColl)
    simp only [moveAttachment, hig, hatt, hne, hasFile_createFolder, hE, hColl, hdel]
    simp [pruneIf_files, createFolder_files, Vault.renameFile, hpe, h1, hpu]
  · intro hE hColl
    simp only [moveAttachment, hig, hatt, hne, hasFile_createFolder, hE, hColl]
    simp [pruneIf_files, createFolder_files, Vault.copyFile, hmem]
  · intro hE hColl hdel
    have h1 : newLink ∈ v.files.erase path :=
      (List.mem_erase_of_ne hnl).mpr ((hasFile_iff v newLink).mp hColl)
    simp only [moveAttachment, hig, hatt, hne, hasFile_createFolder, hE, hColl, hdel]
    simp [pruneIf_files, createFolder_files, Vault.renameFile, Vault.copyFile, hpe, h1]
  · intro hE hColl hdel
    simp only [moveAttachment, hig, hatt, hne, hasFile_createFolder, hE, hColl, hdel]
    simp [pruneIf_files, createFolder_files]

theorem moveAttachment_conflict_table_witness :
    (moveAttachment cfg0 fenv0 ⟨["a/img.png"], ["a", "t"]⟩ "a/img.png" "t/img.png" [] false false).1
      = ⟨[⟨"a/img.png", "t/img.png"⟩], []⟩
    ∧ "t/img.png" ∈ (moveAttachment cfg0 fenv0 ⟨["a/img.png"], ["a", "t"]⟩
        "a/img.png" "t/img.png" [] false false).2.files
    ∧ "a/img.png" ∉ (moveAttachment cfg0 fenv0 ⟨["a/img.png"], ["a", "t"]⟩
        "a/img.png" "t/img.png" [] false false).2.files :=
  (moveAttachment_conflict_table cfg0 fenv0 ⟨["a/img.png"], ["a", "t"]⟩ "a/img.png" "t/img.png"
    [] false false (by decide) (by decide) (by decide) (by decide) (by decide) (by decide)).1
    (by decide) (by decide)

/-! ## Claim C6 — the missing-`ID` hard error -/

/-- C6 counterexample: in the default positional mode
(`customized = false`), a note without an `ID` frontmatter entry has its
collection aborted with a `Notice` and an empty result, while the same
note with an `ID` gets its attachment collected — so the identifier is
required in the default mode too, contradicting the claim that only the
content-addressed mode requires it. -/
theorem missing_id_default_mode_counterexample :
    (collectAttachmentsForCachedNote cfg0 (fenvC6 cacheNoID) stC6 "n.md" false false false).1
      = emptyResult
    ∧ (collectAttachmentsForCachedNote cfg0 (fenvC6 cacheNoID) stC6 "n.md" false false false).2.notices
      ≠ []
    ∧ (collectAttachmentsForCachedNote cfg0 (fenvC6 cacheWithID) stC6 "n.md" false false false).1.movedAttachments
      = [⟨"img.png", "att/img.png"⟩] :=
  ⟨rfl, by decide, rfl⟩

/-- C6 amended: a missing (or JavaScript-falsy) `ID` frontmatter entry
is a hard error that aborts attachment collection for the note with a
`Notice`, in both naming modes — the mode flag `cu` is arbitrary
here. -/
theorem collect_missing_id_aborts (cfg : FCfg) (env : FEnv) (st : FState)
    (notePath : String) (de pf cu : Bool) (c : NoteCache)
    (hig : isPathIgnored cfg notePath = false)
    (hc : env.cacheOf notePath = some c)
    (hid : c.frontmatterID.getD "" = "") :
    collectAttachmentsForCachedNote cfg env st notePath de pf cu
      = (emptyResult,
         { st with notices := ("Missing ID in frontmatter of " ++ notePath) :: st.notices }) := by
  unfold collectAttachmentsForCachedNote
  simp [hig, hc, hid]

theorem collect_missing_id_aborts_witness :
    collectAttachmentsForCachedNote cfg0 (fenvC6 cacheNoID) stC6 "n.md" false false true
      = (emptyResult, { stC6 with notices := ["Missing ID in frontmatter of n.md"] }) :=
  collect_missing_id_aborts cfg0 (fenvC6 cacheNoID) stC6 "n.md" false false true cacheNoID
    (by decide) rfl rfl

/-! ## Lemmas about insertion-ordered maps -/

theorem keysOf_nil : keysOf [] = [] := rfl

theorem keysOf_cons (k1 v1 : String) (t : List (String × String)) :
    keysOf ((k1, v1) :: t) = k1 :: keysOf t := rfl

theorem keysOf_append (m1 m2 : List (String × String)) :
    keysOf (m1 ++ m2) = keysOf m1 ++ keysOf m2 := List.map_append _ _ _

theorem lookupEntry_cons (k1 v1 k : String) (t : List (String × String)) :
    lookupEntry ((k1, v1) :: t) k = if k = k1 then some v1 else lookupEntry t k := rfl

theorem setEntry_cons (k1 v1 k v : String) (t : List (String × String)) :
    setEntry ((k1, v1) :: t) k v
      = if k = k1 then (k, v) :: t else (k1, v1) :: setEntry t k v := rfl

theorem eraseKey_cons (k1 v1 k : String) (t : List (String × String)) :
    eraseKey ((k1, v1) :: t) k = if k = k1 then t else (k1, v1) :: eraseKey t k := rfl

theorem lookupEntry_none_iff (m : List (String × String)) (k : String) :
    lookupEntry m k = none ↔ k ∉ keysOf m := by
  induction m with
  | nil => simp [lookupEntry, keysOf_nil]
  | cons e t ih =>
    obtain ⟨k1, v1⟩ := e
    rw [keysOf_cons, lookupEntry_cons]
    by_cases h : k = k1
    · simp [h]
    · simp only [h, if_false, ih, List.mem_cons]
      simp [h]

theorem lookupEntry_mem (m : List (String × String)) (k v : String)
    (h : lookupEntry m k = some v) : (k, v) ∈ m := by
  induction m with
  | nil => simp [lookupEntry] at h
  | cons e t ih =>
    obtain ⟨k1, v1⟩ := e
    rw [lookupEntry_cons] at h
    by_cases hk : k = k1
    · rw [if_pos hk] at h
      subst hk
      simp at h
      simp [h]
    · rw [if_neg hk] at h
      exact List.mem_cons_of_mem _ (ih h)

theorem lookup_setEntry_self (m : List (String × String)) (k v : String) :
    lookupEntry (setEntry m k v) k = some v := by
  induction m with
  | nil => simp [setEntry, lookupEntry]
  | cons e t ih =>
    obtain ⟨k1, v1⟩ := e
    rw [setEntry_cons]
    by_cases h : k = k1
    · rw [if_pos h, lookupEntry_cons, if_pos rfl]
    · rw [if_neg h, lookupEntry_cons, if_neg h]
      exact ih

theorem lookup_setEntry_other (m : List (String × String)) (k v q : String) (h : q ≠ k) :
    lookupEntry (setEntry m k v) q = lookupEntry m q := by
  induction m with
  | nil => simp [setEntry, lookupEntry, h]
  | cons e t ih =>
    obtain ⟨k1, v1⟩ := e
    rw [setEntry_cons]
    by_cases h1 : k = k1
    · rw [if_pos h1, lookupEntry_cons, if_neg (h1 ▸ h), lookupEntry_cons, if_neg (h1 ▸ h)]
    · rw [if_neg h1, lookupEntry_cons, lookupEntry_cons]
      by_cases h2 : q = k1
      · rw [if_pos h2, if_pos h2]
      · rw [if_neg h2, if_neg h2]
        exact ih

theorem keysOf_setEntry_mem (m : List (String × String)) (k v q : String)
    (h : q ∈ keysOf (setEntry m k v)) : q = k ∨ q ∈ keysOf m := by
  induction m with
  | nil =>
    simp only [setEntry, keysOf_cons, keysOf_nil, List.mem_singleton] at h
    exact Or.inl h
  | cons e t ih =>
    obtain ⟨k1, v1⟩ := e
    rw [keysOf_cons, List.mem_cons]
    rw [setEntry_cons] at h
    by_cases h1 : k = k1
    · rw [if_pos h1, keysOf_cons, List.mem_cons] at h
      rcases h with h | h
      · exact Or.inl h
      · exact Or.inr (Or.inr h)
    · rw [if_neg h1, keysOf_cons, List.mem_cons] at h
      rcases h with h | h
      · exact Or.inr (Or.inl h)
      · rcases ih h with h2 | h2
        · exact Or.inl h2
        · exact Or.inr (Or.inr h2)

theorem keysOf_setEntry_nodup (m : List (String × String)) (k v : String)
    (h : (keysOf m).Nodup) : (keysOf (setEntry m k v)).Nodup := by
  induction m with
  | nil => simp [setEntry, keysOf_cons, keysOf_nil]
  | cons e t ih =>
    obtain ⟨k1, v1⟩ := e
    rw [keysOf_cons, List.nodup_cons] at h
    rw [setEntry_cons]
    by_cases h1 : k = k1
    · rw [if_pos h1, keysOf_cons, List.nodup_cons]
      exact ⟨h1 ▸ h.1, h.2⟩
    · rw [if_neg h1, keysOf_cons, List.nodup_cons]
      refine ⟨fun hk => ?_, ih h.2⟩
      rcases keysOf_setEntry_mem t k v k1 hk with h2 | h2
      · exact h1 h2.symm
      · exact h.1 h2

theorem eraseKey_sublist (m : List (String × String)) (k : String) :
    (eraseKey m k).Sublist m := by
  induction m with
  | nil => simp [eraseKey]
  | cons e t ih =>
    obtain ⟨k1, v1⟩ := e
    rw [eraseKey_cons]
    by_cases h : k = k1
    · rw [if_pos h]
      exact List.sublist_cons_self _ _
    · rw [if_neg h]
      exact ih.cons₂ _

theorem keysOf_eraseKey_nodup (m : List (String × String)) (k : String)
    (h : (keysOf m).Nodup) : (keysOf (eraseKey m k)).Nodup :=
  ((eraseKey_sublist m k).map Prod.fst).nodup h

theorem lookup_eraseKey_self (m : List (String × String)) (k : String)
    (h : (keysOf m).Nodup) : lookupEntry (eraseKey m k) k = none := by
  induction m with
  | nil => rfl
  | cons e t ih =>
    obtain ⟨k1, v1⟩ := e
    rw [keysOf_cons, List.nodup_cons] at h
    rw [eraseKey_cons]
    by_cases h1 : k = k1
    · rw [if_pos h1]
      exact (lookupEntry_none_iff t k).mpr (h1 ▸ h.1)
    · rw [if_neg h1, lookupEntry_cons, if_neg h1]
      exact ih h.2

theorem eraseKey_append_of_not_mem (m1 m2 : List (String × String)) (k : String)
    (h : k ∉ keysOf m1) : eraseKey (m1 ++ m2) k = m1 ++ eraseKey m2 k := by
  induction m1 with
  | nil => rfl
  | cons e t ih =>
    obtain ⟨k1, v1⟩ := e
    rw [keysOf_cons, List.mem_cons] at h
    push_neg at h
    rw [List.cons_append, eraseKey_cons, if_neg h.1, ih h.2]
    rfl

theorem eraseKey_cons_self (t : List (String × String)) (k : String) (v : String) :
    eraseKey ((k, v) :: t) k = t := by
  simp [eraseKey]

/-! ## Frame lemmas for the executor passes -/

theorem foldl_state_frame {α : Type} (g : RState → α → RState)
    (hg : ∀ s a, (g s a).vault = s.vault ∧ (g s a).map = s.map ∧ (g s a).canvas = s.canvas) :
    ∀ (l : List α) (s : RState), (l.foldl g s).vault = s.vault
      ∧ (l.foldl g s).map = s.map ∧ (l.foldl g s).canvas = s.canvas := by
  intro l
  induction l with
  | nil => intro s; exact ⟨rfl, rfl, rfl⟩
  | cons a t ih =>
    intro s
    have h1 := hg s a
    have h2 := ih (g s a)
    exact ⟨h2.1.trans h1.1, h2.2.1.trans h1.2.1, h2.2.2.trans h1.2.2⟩

theorem backlinkPass_frame (env : REnv) (f : String) (s : RState) :
    (backlinkPass env f s).vault = s.vault ∧ (backlinkPass env f s).map = s.map
      ∧ (backlinkPass env f s).canvas = s.canvas := by
  unfold backlinkPass
  apply foldl_state_frame
  intro s1 pn
  dsimp only
  split
  · exact ⟨rfl, rfl, rfl⟩
  split
  · split <;> exact ⟨rfl, rfl, rfl⟩
  · exact ⟨rfl, rfl, rfl⟩

theorem containerPass_frame (f : String) (s : RState) :
    (containerPass f s).vault = s.vault ∧ (containerPass f s).map = s.map := by
  unfold containerPass
  split
  · split <;> exact ⟨rfl, rfl⟩
  split <;> exact ⟨rfl, rfl⟩

/-! ## Claim C7 — the canvas rewrite of `processRename` -/

theorem lookupCanvas_cons (k1 : String) (v1 : CanvasData) (k : String)
    (t : List (String × CanvasData)) :
    lookupCanvas ((k1, v1) :: t) k = if k = k1 then some v1 else lookupCanvas t k := rfl

theorem setCanvas_cons (k1 : String) (v1 : CanvasData) (k : String) (v : CanvasData)
    (t : List (String × CanvasData)) :
    setCanvas ((k1, v1) :: t) k v
      = if k = k1 then (k, v) :: t else (k1, v1) :: setCanvas t k v := rfl

theorem lookup_setCanvas_self (c : List (String × CanvasData)) (k : String) (v : CanvasData) :
    lookupCanvas (setCanvas c k v) k = some v := by
  induction c with
  | nil => simp [setCanvas, lookupCanvas]
  | cons e t ih =>
    obtain ⟨k1, v1⟩ := e
    rw [setCanvas_cons]
    by_cases h : k = k1
    · rw [if_pos h, lookupCanvas_cons, if_pos rfl]
    · rw [if_neg h, lookupCanvas_cons, if_neg h]
      exact ih

theorem lookup_setCanvas_other (c : List (String × CanvasData)) (k : String) (v : CanvasData)
    (q : String) (h : q ≠ k) :
    lookupCanvas (setCanvas c k v) q = lookupCanvas c q := by
  induction c with
  | nil => simp [setCanvas, lookupCanvas, h]
  | cons e t ih =>
    obtain ⟨k1, v1⟩ := e
    rw [setCanvas_cons]
    by_cases h1 : k = k1
    · rw [if_pos h1, lookupCanvas_cons, if_neg (h1 ▸ h), lookupCanvas_cons, if_neg (h1 ▸ h)]
    · rw [if_neg h1, lookupCanvas_cons, lookupCanvas_cons]
      by_cases h2 : q = k1
      · rw [if_pos h2, if_pos h2]
      · rw [if_neg h2, if_neg h2]
        exact ih

/-- When no rename-map value is the empty string (true of every map the
cascade builds, since values are live paths), the falsy-value guard of
the canvas rewrite is inert: every file node whose path is a key is
rewritten to its mapped path, unconditionally. -/
theorem renameCanvasData_spec (m : List (String × String)) (d : CanvasData)
    (hvals : ∀ e ∈ m, e.2 ≠ "") :
    (renameCanvasData m d).extra = d.extra
    ∧ (renameCanvasData m d).nodes = d.nodes.map (fun nd =>
        if nd.ntype = "file" then
          match lookupEntry m nd.file with
          | some p => { nd with file := p }
          | none => nd
        else nd) := by
  refine ⟨rfl, ?_⟩
  unfold renameCanvasData
  simp only
  apply List.map_congr_left
  intro nd _
  by_cases ht : nd.ntype = "file"
  · rw [if_neg (fun hn => hn ht), if_pos ht]
    cases hl : lookupEntry m nd.file with
    | none => rfl
    | some p =>
      have hp : p ≠ "" := hvals (nd.file, p) (lookupEntry_mem m nd.file p hl)
      simp [hp]
  · rw [if_pos ht, if_neg ht]

/-- C7: when the moved file is a canvas container, `processRename`
rewrites exactly the file-reference fields: every node of type `"file"`
whose path is a key of the rename map gets its `file` field replaced by
the mapped path, every other node and every other field of the canvas
data is unchanged, other canvas files are untouched, and neither the
vault nor the rename map changes.  The empty string is never a value of
a cascade rename map, which `hvals` records. -/
theorem processRename_canvas_rewrite (env : REnv) (s : RState) (oldPath newPath : String)
    (d : CanvasData)
    (hvals : ∀ e ∈ s.map, e.2 ≠ "")
    (hold : s.vault.hasFile oldPath = false)
    (hnew : s.vault.hasFile newPath = true)
    (hext : extOf newPath = "canvas")
    (hcv : lookupCanvas s.canvas newPath = some d) :
    ∃ s2, processRename env s oldPath newPath = .ok s2
      ∧ s2.vault = s.vault
      ∧ s2.map = s.map
      ∧ (∀ q, q ≠ newPath → lookupCanvas s2.canvas q = lookupCanvas s.canvas q)
      ∧ ∃ d2, lookupCanvas s2.canvas newPath = some d2
          ∧ d2.extra = d.extra
          ∧ d2.nodes = d.nodes.map (fun nd =>
              if nd.ntype = "file" then
                match lookupEntry s.map nd.file with
                | some p => { nd with file := p }
                | none => nd
              else nd) := by
  have hbl := backlinkPass_frame env newPath s
  have hcp : containerPass newPath (backlinkPass env newPath s)
      = { backlinkPass env newPath s with
          canvas := setCanvas (backlinkPass env newPath s).canvas newPath
            (renameCanvasData (backlinkPass env newPath s).map d) } := by
    unfold containerPass
    rw [if_pos hext, hbl.2.2, hcv]
  unfold processRename
  simp only [hold, hnew, Bool.false_eq_true, not_false_iff, not_true, false_and, and_false,
    if_false, ite_false, ite_true, if_true]
  rw [hcp]
  refine ⟨_, rfl, ?_, ?_, ?_, ?_⟩
  · exact hbl.1
  · exact hbl.2.1
  · intro q hq
    show lookupCanvas (setCanvas (backlinkPass env newPath s).canvas newPath _) q
        = lookupCanvas s.canvas q
    rw [lookup_setCanvas_other _ _ _ _ hq, hbl.2.2]
  · refine ⟨renameCanvasData (backlinkPass env newPath s).map d, ?_, ?_⟩
    · exact lookup_setCanvas_self _ _ _
    · rw [hbl.2.1]
      exact ⟨(renameCanvasData_spec s.map d hvals).1, (renameCanvasData_spec s.map d hvals).2⟩

theorem processRename_canvas_rewrite_witness :
    ∃ s2, processRename renv0 sC7 "o.canvas" "c.canvas" = .ok s2
      ∧ s2.vault = sC7.vault
      ∧ s2.map = sC7.map
      ∧ (∀ q, q ≠ "c.canvas" → lookupCanvas s2.canvas q = lookupCanvas sC7.canvas q)
      ∧ ∃ d2, lookupCanvas s2.canvas "c.canvas" = some d2
          ∧ d2.extra = (⟨[⟨"file", "a.png", "x"⟩, ⟨"text", "t", "y"⟩], "E"⟩ : CanvasData).extra
          ∧ d2.nodes = (⟨[⟨"file", "a.png", "x"⟩, ⟨"text", "t", "y"⟩], "E"⟩ : CanvasData).nodes.map
              (fun nd =>
                if nd.ntype = "file" then
                  match lookupEntry sC7.map nd.file with
                  | some p => { nd with file := p }
                  | none => nd
                else nd) :=
  processRename_canvas_rewrite renv0 sC7 "o.canvas" "c.canvas"
    ⟨[⟨"file", "a.png", "x"⟩, ⟨"text", "t", "y"⟩], "E"⟩
    (by decide) (by decide) (by decide) (by decide) rfl

/-! ## Claim C5 — `processRename` per-entry behaviour -/

/-- C5 counterexample: an entry whose old and new paths both resolve to
no live file is skipped, but silently — the returned state is exactly
the input state, its console log included, whereas the claim specifies a
logged warning. -/
theorem processRename_skip_silent_counterexample :
    processRename renv0 (rstate ⟨[], []⟩ []) "x.png" "y.png" = .ok (rstate ⟨[], []⟩ [])
    ∧ (rstate ⟨[], []⟩ []).logs = [] :=
  ⟨rfl, rfl⟩

/-- C5 amended: when neither the old nor the new path of a rename-map
entry resolves to a live file, `processRename` skips the entry silently
— no log is written and the state is returned unchanged.  When a file
still exists at the old path and the destination is unoccupied (an
occupied destination makes the physical rename throw instead), the
destination folder is created if needed, the file is physically moved,
the entry is removed from the rename map, and the old parent hierarchy
is pruned — any folder the step removed had no remaining file child. -/
theorem processRename_entry_outcomes (env : REnv) (s : RState) (o n : String)
    (hnd : s.vault.files.Nodup) (hk : (keysOf s.map).Nodup) :
    (s.vault.hasFile o = false → s.vault.hasFile n = false →
      processRename env s o n = .ok s)
    ∧ (s.vault.hasFile o = true → s.vault.hasFile n = false →
      ∃ s2, processRename env s o n = .ok s2
        ∧ n ∈ s2.vault.files
        ∧ o ∉ s2.vault.files
        ∧ (dirname n = "." ∨ dirname n = "" ∨ s2.vault.hasFolder (dirname n) = true)
        ∧ lookupEntry s2.map o = none
        ∧ s2.map = eraseKey s.map o
        ∧ (∀ dd, dd ∈ s.vault.folders → dd ∉ s2.vault.folders →
            ∀ f ∈ s2.vault.files, dirname f ≠ dd)) := by
  constructor
  · intro ho hn
    unfold processRename
    simp [ho, hn]
  · intro ho hn
    have hbl := backlinkPass_frame env o s
    have hcp := containerPass_frame o (backlinkPass env o s)
    have hvav : (containerPass o (backlinkPass env o s)).vault = s.vault := hcp.1.trans hbl.1
    have hmap : (containerPass o (backlinkPass env o s)).map = s.map := hcp.2.trans hbl.2.1
    unfold processRename
    simp only [ho, hn, Bool.true_eq_false, not_true, not_false_iff, false_and, and_false,
      if_false, ite_false, ite_true, if_true]
    rw [if_neg (by
      rw [hasFile_createFolder, hvav, hn]
      exact Bool.false_ne_true)]
    set v1 := (containerPass o (backlinkPass env o s)).vault.createFolder (dirname n) with hv1
    have hv1files : v1.files = s.vault.files := by
      rw [hv1, createFolder_files, hvav]
    have hone : o ≠ n := by
      intro h
      rw [h, hn] at ho
      exact Bool.false_ne_true ho
    refine ⟨_, rfl, ?_, ?_, ?_, ?_, ?_, ?_⟩
    · show n ∈ ((v1.renameFile o n).prune (dirname o)).files
      rw [prune_files]
      exact List.mem_cons_self _ _
    · show o ∉ ((v1.renameFile o n).prune (dirname o)).files
      rw [prune_files]
      intro hmem
      rcases List.mem_cons.mp hmem with h | h
      · exact hone h
      · rw [hv1files] at h
        exact List.Nodup.not_mem_erase hnd h
    · by_cases hdot : dirname n = "."
      · exact Or.inl hdot
      by_cases hemp : dirname n = ""
      · exact Or.inr (Or.inl hemp)
      refine Or.inr (Or.inr ?_)
      show ((v1.renameFile o n).prune (dirname o)).hasFolder (dirname n) = true
      have h1 : dirname n ∈ v1.folders := by
        rw [hv1]
        exact createFolder_mem _ _ hdot hemp
      have h2 : dirname n ∈ (v1.renameFile o n).folders := h1
      have h3 : n ∈ (v1.renameFile o n).files := List.mem_cons_self _ _
      have := prune_keeps_nonempty (v1.renameFile o n) (dirname o) (dirname n) h2 n h3 rfl
      simpa [Vault.hasFolder] using this
    · show lookupEntry (eraseKey (containerPass o (backlinkPass env o s)).map o) o = none
      rw [hmap]
      exact lookup_eraseKey_self s.map o hk
    · show eraseKey (containerPass o (backlinkPass env o s)).map o = eraseKey s.map o
      rw [hmap]
    · intro dd hdd hgone f hf hdf
      show False
      have hdd1 : dd ∈ (v1.renameFile o n).folders := by
        show dd ∈ v1.folders
        rw [hv1, hvav]
        unfold Vault.createFolder
        split
        · exact hdd
        · exact List.mem_cons_of_mem _ hdd
      have hfin : f ∈ ((v1.renameFile o n).prune (dirname o)).files := hf
      rw [prune_files] at hfin
      exact prune_removed_empty (v1.renameFile o n) (dirname o) dd hdd1 hgone f hfin hdf

theorem processRename_entry_outcomes_witness :
    ∃ s2, processRename renv0 (rstate ⟨["a/x.png"], ["a"]⟩ [("a/x.png", "b/x.png")])
        "a/x.png" "b/x.png" = .ok s2
      ∧ "b/x.png" ∈ s2.vault.files
      ∧ "a/x.png" ∉ s2.vault.files
      ∧ (dirname "b/x.png" = "." ∨ dirname "b/x.png" = ""
          ∨ s2.vault.hasFolder (dirname "b/x.png") = true)
      ∧ lookupEntry s2.map "a/x.png" = none
      ∧ s2.map = eraseKey (rstate ⟨["a/x.png"], ["a"]⟩ [("a/x.png", "b/x.png")]).map "a/x.png"
      ∧ (∀ dd, dd ∈ (rstate ⟨["a/x.png"], ["a"]⟩ [("a/x.png", "b/x.png")]).vault.folders →
          dd ∉ s2.vault.folders → ∀ f ∈ s2.vault.files, dirname f ≠ dd) :=
  (processRename_entry_outcomes renv0 (rstate ⟨["a/x.png"], ["a"]⟩ [("a/x.png", "b/x.png")])
    "a/x.png" "b/x.png" (by decide) (by decide)).2 (by decide) (by decide)

/-! ## Claim C10 — per-call deduplication of attachments -/

/-- Every `movedAttachments` entry a single `moveAttachment` call
records carries the processed file's path as its `oldPath`, and at most
one entry is recorded. -/
theorem moveAttachment_moved_shape (cfg : FCfg) (env : FEnv) (v : Vault) (p nl : String)
    (par : List String) (de pf : Bool) :
    (moveAttachment cfg env v p nl par de pf).1.movedAttachments = []
    ∨ ∃ np, (moveAttachment cfg env v p nl par de pf).1.movedAttachments = [⟨p, np⟩] := by
  unfold moveAttachment
  dsimp only
  repeat' split
  all_goals first
    | exact Or.inl rfl
    | exact Or.inr ⟨_, rfl⟩

/-- C10 counterexample: the note links the same attachment twice, as
`img.png` and as `./img.png`; the host's link resolution returns the
same file `sub/img.png` for both, while the naive
`getFullPathForLink` keys used by the deduplication guard differ from
the file's real path.  Both links are processed and the returned
`movedAttachments` repeats `oldPath = "sub/img.png"`. -/
theorem collect_duplicate_oldPaths_counterexample :
    (collectAttachmentsForCachedNote cfg0 fenvC10 stC10 "n.md" true false false).1.movedAttachments
      = [⟨"sub/img.png", "n/img.png"⟩, ⟨"sub/img.png", "n/img.png"⟩]
    ∧ ¬ (((collectAttachmentsForCachedNote cfg0 fenvC10 stC10 "n.md" true false
          false).1.movedAttachments).map (fun e => e.oldPath)).Nodup := by
  constructor
  · rfl
  · decide

/-- One step of the link loop preserves distinctness of the recorded
`oldPath` values, provided link resolution agrees with the naive full
path the guard keys on. -/
theorem collectStep_preserves_nodup (cfg : FCfg) (env : FEnv) (notePath : String)
    (de pf cu : Bool) (id : String) (acc : MovedAttachmentResult × FState) (lnk : String)
    (hExact : ∀ v lnk2 p, env.resolveLink v lnk2 notePath = some p →
      p = env.fullPathForLink (linkPathOf lnk2) notePath)
    (hnd : ((acc.1.movedAttachments).map (fun e => e.oldPath)).Nodup) :
    (((collectStep cfg env notePath de pf cu id acc lnk).1.movedAttachments).map
      (fun e => e.oldPath)).Nodup := by
  obtain ⟨result, stt⟩ := acc
  unfold collectStep
  dsimp only
  by_cases h0 : linkPathOf lnk = ""
  · rw [if_pos h0]
    exact hnd
  rw [if_neg h0]
  by_cases h1 : (result.movedAttachments.any
      fun x => x.oldPath = env.fullPathForLink (linkPathOf lnk) notePath) = true
  · rw [if_pos h1]
    exact hnd
  rw [if_neg h1]
  cases hres : env.resolveLink stt.vault lnk notePath with
  | none =>
    simp only [hres]
    exact hnd
  | some filePath =>
    simp only [hres]
    by_cases h2 : isNote filePath = true
    · rw [if_pos h2]
      exact hnd
    rw [if_neg h2]
    rcases hM : moveAttachment cfg env stt.vault filePath
        (if ¬ cu = true then env.attachmentFilePath stt.vault filePath notePath
         else getCustomizedNewPath env stt.vault notePath filePath id) [notePath] de pf
      with ⟨resM, vM⟩
    have hshape := moveAttachment_moved_shape cfg env stt.vault filePath
      (if ¬ cu = true then env.attachmentFilePath stt.vault filePath notePath
       else getCustomizedNewPath env stt.vault notePath filePath id) [notePath] de pf
    rw [hM] at hshape
    dsimp only at hshape
    rcases hshape with hsh | ⟨np, hsh⟩
    · rw [hsh]
      simpa using hnd
    · rw [hsh]
      have hfp : filePath = env.fullPathForLink (linkPathOf lnk) notePath :=
        hExact stt.vault lnk filePath hres
    
      have hnotin : filePath ∉ (result.movedAttachments.map (fun e => e.oldPath)) := by
        intro hmem
        rcases List.mem_map.mp hmem with ⟨e, he, heq⟩
        have := List.any_eq_false.mp (Bool.not_eq_true _ |>.mp h1) e he
        rw [heq, hfp] at this
        simp at this
      rw [List.map_append]
      rw [List.nodup_append]
      refine ⟨hnd, by simp, ?_⟩
      intro a ha hb
      simp only [List.map_cons, List.map_nil, List.mem_singleton] at hb
      subst hb
      exact hnotin ha

/-- C10 amended: the deduplication inside
`collectAttachmentsForCachedNote` keys on the naive
`getFullPathForLink` result, not on the resolved file path; whenever
host link resolution agrees with that naive path (`hExact`), each
distinct attachment is processed at most once and the returned
`movedAttachments` entries have pairwise-distinct `oldPath` values.
When the two resolutions disagree, the same attachment can be processed
several times (see the counterexample). -/
theorem collect_distinct_oldPaths (cfg : FCfg) (env : FEnv) (st : FState)
    (notePath : String) (de pf cu : Bool)
    (hExact : ∀ v lnk2 p, env.resolveLink v lnk2 notePath = some p →
      p = env.fullPathForLink (linkPathOf lnk2) notePath) :
    (((collectAttachmentsForCachedNote cfg env st notePath de pf cu).1.movedAttachments).map
      (fun e => e.oldPath)).Nodup := by
  unfold collectAttachmentsForCachedNote
  split
  · simp [emptyResult]
  cases hc : env.cacheOf notePath with
  | none => simp [emptyResult]
  | some cache =>
    simp only
    split
    · simp [emptyResult]
    · have haux : ∀ (L : List String) (acc : MovedAttachmentResult × FState),
          ((acc.1.movedAttachments).map (fun e => e.oldPath)).Nodup →
          (((L.foldl (collectStep cfg env notePath de pf cu (cache.frontmatterID.getD ""))
              acc).1.movedAttachments).map (fun e => e.oldPath)).Nodup := by
        intro L
        induction L with
        | nil => intro acc h; exact h
        | cons a t ih =>
          intro acc h
          exact ih _ (collectStep_preserves_nodup cfg env notePath de pf cu _ acc a hExact h)
      exact haux cache.links (emptyResult, st) (by simp [emptyResult])

theorem collect_distinct_oldPaths_witness :
    (((collectAttachmentsForCachedNote cfg0 fenvC10w ⟨⟨["n.md", "img.png"], []⟩, []⟩
        "n.md" false false false).1.movedAttachments).map (fun e => e.oldPath)).Nodup :=
  collect_distinct_oldPaths cfg0 fenvC10w ⟨⟨["n.md", "img.png"], []⟩, []⟩ "n.md" false false false
    (by
      intro v lnk2 p h
      simp only [fenvC10w, fenv0] at h ⊢
      split at h
      · exact (Option.some_inj.mp h).symm
      · exact absurd h (by simp))

/-! ## Claim C8 — the empty-folder sweep -/

theorem isPathIgnored_trivial (cfg : FCfg) (h1 : cfg.ignoreFolders = [])
    (h2 : cfg.ignoreFilesRegex = []) (p : String) : isPathIgnored cfg p = false := by
  unfold isPathIgnored
  rw [h1, h2]
  rfl

/-- C8 counterexample: an existing, empty, non-ignored folder whose
`rmdir` fails while the folder still exists.  The sweep re-throws — the
error is fatal and the empty folder is not removed — whereas the claim
says a removal error on a still-existing folder is non-fatal. -/
theorem delete_empty_folders_errstay_counterexample :
    deleteEmptyFolders cfg0 (fun _ => RmOut.errStay) "a" (some (.node [] .nil))
      = .error () := rfl

mutual
/-- In a run with no ignore patterns and no still-existing `rmdir`
failure, the sweep never throws, and it removes the folder exactly when
no file exists anywhere in its subtree. -/
theorem delDir_clean (cfg : FCfg) (rm : String → RmOut)
    (h1 : cfg.ignoreFolders = []) (h2 : cfg.ignoreFilesRegex = [])
    (hrm : ∀ p, rm p ≠ RmOut.errStay) (path : String) (d : Dir) :
    ∃ r, delDir cfg rm path d = .ok r ∧ (r = none ↔ dirNoFiles d = true) := by
  cases d with
  | node fs subs =>
    obtain ⟨fr, hfr, hiff⟩ := delForest_clean cfg rm h1 h2 hrm (stripDotSlash path) subs
    rw [delDir, isPathIgnored_trivial cfg h1 h2 path]
    simp only [Bool.false_eq_true, if_false, hfr]
    by_cases hc : fs.isEmpty = true ∧ fr.isNil = true
    · rw [if_pos hc]
      cases hp : rm (stripDotSlash path) with
      | ok =>
        refine ⟨none, rfl, ?_⟩
        simp only [dirNoFiles, Bool.and_eq_true, hc.1, true_and]
        simp [hiff.mp hc.2]
      | errGone =>
        refine ⟨none, rfl, ?_⟩
        simp only [dirNoFiles, Bool.and_eq_true, hc.1, true_and]
        simp [hiff.mp hc.2]
      | errStay => exact absurd hp (hrm _)
    · rw [if_neg hc]
      refine ⟨some (.node fs fr), rfl, ?_⟩
      constructor
      · intro h
        exact absurd h (by simp)
      · intro h
        rw [dirNoFiles, Bool.and_eq_true] at h
        exact absurd ⟨h.1, hiff.mpr h.2⟩ hc
theorem delForest_clean (cfg : FCfg) (rm : String → RmOut)
    (h1 : cfg.ignoreFolders = []) (h2 : cfg.ignoreFilesRegex = [])
    (hrm : ∀ p, rm p ≠ RmOut.errStay) (path : String) (f : Forest) :
    ∃ fr, delForest cfg rm path f = .ok fr ∧ (fr.isNil = true ↔ forestNoFiles f = true) := by
  cases f with
  | nil => exact ⟨.nil, rfl, by simp [Forest.isNil, forestNoFiles]⟩
  | cons nm d rest =>
    obtain ⟨r, hr, hriff⟩ := delDir_clean cfg rm h1 h2 hrm (path ++ "/" ++ nm) d
    obtain ⟨fr, hfr, hfiff⟩ := delForest_clean cfg rm h1 h2 hrm path rest
    cases r with
    | none =>
      refine ⟨fr, ?_, ?_⟩
      · rw [delForest, hr, hfr]
      · rw [hfiff]
        simp only [forestNoFiles, Bool.and_eq_true]
        have hd : dirNoFiles d = true := hriff.mp rfl
        simp [hd]
    | some d1 =>
      refine ⟨.cons nm d1 fr, ?_, ?_⟩
      · rw [delForest, hr, hfr]
      · have hd : dirNoFiles d = false := by
          cases hdv : dirNoFiles d with
          | false => rfl
          | true =>
            have := hriff.mpr hdv
            simp at this
        constructor
        · intro h
          exact absurd h (by simp [Forest.isNil])
        · intro h
          rw [forestNoFiles, Bool.and_eq_true] at h
          rw [hd] at h
          exact absurd h.1 (by simp)
end

/-- C8 amended: a nonexistent folder path is treated as already pruned
(the sweep is a no-op without error), and — with no ignore patterns
configured and no `rmdir` failure that leaves the folder in place — the
sweep never throws and removes the folder if and only if, after
recursively processing its subfolders, no child file and no child
subfolder remains (equivalently: no file exists anywhere in its
subtree).  A `rmdir` error on a folder that no longer exists is
swallowed; one on a folder that still exists is re-thrown, so it is
fatal, not benign (see the counterexample). -/
theorem deleteEmptyFolders_spec (cfg : FCfg) (rm : String → RmOut) (path : String)
    (d : Dir) (h1 : cfg.ignoreFolders = []) (h2 : cfg.ignoreFilesRegex = [])
    (hrm : ∀ p, rm p ≠ RmOut.errStay) :
    deleteEmptyFolders cfg rm path none = .ok none
    ∧ ∃ r, deleteEmptyFolders cfg rm path (some d) = .ok r
        ∧ (r = none ↔ dirNoFiles d = true) :=
  ⟨rfl, delDir_clean cfg rm h1 h2 hrm path d⟩

theorem deleteEmptyFolders_spec_witness :
    deleteEmptyFolders cfg0 (fun _ => RmOut.ok) "a" none = .ok none
    ∧ ∃ r, deleteEmptyFolders cfg0 (fun _ => RmOut.ok) "a"
          (some (.node [] (.cons "b" (.node [] .nil) .nil))) = .ok r
        ∧ (r = none ↔ dirNoFiles (.node [] (.cons "b" (.node [] .nil) .nil)) = true) :=
  deleteEmptyFolders_spec cfg0 (fun _ => RmOut.ok) "a"
    (.node [] (.cons "b" (.node [] .nil) .nil)) rfl rfl (fun _ h => RmOut.noConfusion h)

/-! ## Claim C4 — lifecycle of the rename map -/

/-- The four input situations of `processRename` and their effect on the
rename map and the file list. -/
theorem processRename_cases (env : REnv) (s : RState) (o n : String) :
    (s.vault.hasFile o = false → s.vault.hasFile n = false → processRename env s o n = .ok s)
    ∧ (s.vault.hasFile o = false → s.vault.hasFile n = true →
        ∃ s2, processRename env s o n = .ok s2 ∧ s2.map = s.map ∧ s2.vault = s.vault)
    ∧ (s.vault.hasFile o = true → s.vault.hasFile n = true →
        ∃ s3, processRename env s o n = .error s3)
    ∧ (s.vault.hasFile o = true → s.vault.hasFile n = false →
        ∃ s4, processRename env s o n = .ok s4 ∧ s4.map = eraseKey s.map o
          ∧ s4.vault.files = n :: s.vault.files.erase o) := by
  refine ⟨?_, ?_, ?_, ?_⟩
  · intro ho hn
    unfold processRename
    simp [ho, hn]
  · intro ho hn
    have hbl := backlinkPass_frame env n s
    have hcp := containerPass_frame n (backlinkPass env n s)
    unfold processRename
    simp only [ho, hn, Bool.false_eq_true, Bool.true_eq_false, not_false_iff, not_true,
      false_and, and_false, and_true, true_and, if_false, ite_false, ite_true, if_true]
    exact ⟨_, rfl, hcp.2.trans hbl.2.1, hcp.1.trans hbl.1⟩
  · intro ho hn
    have hvav : (containerPass o (backlinkPass env o s)).vault = s.vault :=
      (containerPass_frame o (backlinkPass env o s)).1.trans (backlinkPass_frame env o s).1
    unfold processRename
    simp only [ho, hn, Bool.false_eq_true, Bool.true_eq_false, not_false_iff, not_true,
      false_and, and_false, and_true, true_and, if_false, ite_false, ite_true, if_true]
    rw [if_pos (by rw [hasFile_createFolder, hvav]; exact hn)]
    exact ⟨_, rfl⟩
  · intro ho hn
    have hvav : (containerPass o (backlinkPass env o s)).vault = s.vault :=
      (containerPass_frame o (backlinkPass env o s)).1.trans (backlinkPass_frame env o s).1
    have hmap : (containerPass o (backlinkPass env o s)).map = s.map :=
      (containerPass_frame o (backlinkPass env o s)).2.trans (backlinkPass_frame env o s).2.1
    unfold processRename
    simp only [ho, hn, Bool.false_eq_true, Bool.true_eq_false, not_false_iff, not_true,
      false_and, and_false, and_true, true_and, if_false, ite_false, ite_true, if_true]
    rw [if_neg (by rw [hasFile_createFolder, hvav, hn]; exact Bool.false_ne_true)]
    refine ⟨_, rfl, ?_, ?_⟩
    · show eraseKey (containerPass o (backlinkPass env o s)).map o = eraseKey s.map o
      rw [hmap]
    · show ((((containerPass o (backlinkPass env o s)).vault.createFolder
          (dirname n)).renameFile o n).prune (dirname o)).files = n :: s.vault.files.erase o
      rw [prune_files]
      show n :: ((containerPass o (backlinkPass env o s)).vault.createFolder
          (dirname n)).files.erase o = n :: s.vault.files.erase o
      rw [createFolder_files, hvav]

theorem foldl_keys_mem (g : List (String × String) → String → List (String × String))
    (hg : ∀ m c k, k ∈ keysOf (g m c) → k = c ∨ k ∈ keysOf m) :
    ∀ (L : List String) (m : List (String × String)) (k : String),
      k ∈ keysOf (L.foldl g m) → k ∈ keysOf m ∨ k ∈ L := by
  intro L
  induction L with
  | nil => exact fun m k h => Or.inl h
  | cons c t ih =>
    intro m k h
    rcases ih (g m c) k h with h2 | h2
    · rcases hg m c k h2 with h3 | h3
      · exact Or.inr (h3 ▸ List.mem_cons_self c t)
      · exact Or.inl h3
    · exact Or.inr (List.mem_cons_of_mem _ h2)

theorem foldl_keys_nodup (g : List (String × String) → String → List (String × String))
    (hg : ∀ m c, (keysOf m).Nodup → (keysOf (g m c)).Nodup) :
    ∀ (L : List String) (m : List (String × String)),
      (keysOf m).Nodup → (keysOf (L.foldl g m)).Nodup := by
  intro L
  induction L with
  | nil => exact fun m h => h
  | cons c t ih => exact fun m h => ih (g m c) (hg m c h)

/-- `fillRenameMap` changes only the map. -/
theorem fillRenameMap_frame (env : REnv) (s : RState) (f o : String) :
    (fillRenameMap env s f o).vault = s.vault
    ∧ (fillRenameMap env s f o).canvas = s.canvas := by
  unfold fillRenameMap
  dsimp only
  repeat' split
  all_goals exact ⟨rfl, rfl⟩

/-- Every key of the map `fillRenameMap` builds is an old key, the
renamed document's old path, or an existing file. -/
theorem fillRenameMap_keys (env : REnv) (s : RState) (f o : String) (k : String)
    (hk : k ∈ keysOf (fillRenameMap env s f o).map) :
    k ∈ keysOf s.map ∨ k = o ∨ k ∈ s.vault.files := by
  have hseed : ∀ k2, k2 ∈ keysOf (setEntry s.map o f) →
      k2 ∈ keysOf s.map ∨ k2 = o ∨ k2 ∈ s.vault.files := by
    intro k2 h
    rcases keysOf_setEntry_mem _ _ _ _ h with h | h
    · exact Or.inr (Or.inl h)
    · exact Or.inl h
  dsimp only [fillRenameMap] at hk
  split at hk
  · exact hseed k hk
  split at hk
  · exact hseed k hk
  split at hk
  · exact hseed k hk
  · have hmem2 := foldl_keys_mem _ ?hg _ _ k hk
    rcases hmem2 with h | h
    · exact hseed k h
    · exact Or.inr (Or.inr (List.mem_of_mem_filter h))
    case hg =>
      intro m c k2 h
      split at h
      · exact Or.inr h
      split at h
      · exact Or.inr h
      · exact keysOf_setEntry_mem _ _ _ _ h

/-- The map `fillRenameMap` builds from an empty map has pairwise
distinct keys. -/
theorem fillRenameMap_keys_nodup (env : REnv) (s : RState) (f o : String)
    (h : (keysOf s.map).Nodup) : (keysOf (fillRenameMap env s f o).map).Nodup := by
  have hseed : (keysOf (setEntry s.map o f)).Nodup := keysOf_setEntry_nodup _ _ _ h
  unfold fillRenameMap
  dsimp only
  split
  · exact hseed
  split
  · exact hseed
  split
  · exact hseed
  · refine foldl_keys_nodup _ ?_ _ _ hseed
    intro m c hm
    dsimp only
    split
    · exact hm
    split
    · exact hm
    · exact keysOf_setEntry_nodup _ _ _ hm

/-- The executor loop invariant: starting from a map that is the list of
remaining entries prefixed by already-skipped seed entries, an
error-free run leaves only entries whose key is the seed old path. -/
theorem processLoop_drain (env : REnv) (seed : String) :
    ∀ (L skipped : List (String × String)) (s : RState),
      s.map = skipped ++ L →
      (keysOf (skipped ++ L)).Nodup →
      (∀ e ∈ skipped, e.1 = seed) →
      (∀ e ∈ L, e.1 = seed ∨ e.1 ∈ s.vault.files) →
      ∀ s2, processLoop env L s = (s2, false) →
      (∀ e ∈ s2.map, e.1 = seed) ∧ (keysOf s2.map).Nodup := by
  intro L
  induction L with
  | nil =>
    intro skipped s hmap hnd hsk _hL s2 hpl
    have hs2 : s2 = s := congrArg Prod.fst hpl.symm
    subst hs2
    rw [hmap]
    constructor
    · intro e he
      exact hsk e (by simpa using he)
    · simpa using hnd
  | cons en rest ih =>
    obtain ⟨k, nv⟩ := en
    intro skipped s hmap hnd hsk hL s2 hpl
    have hcases := processRename_cases env s k nv
    have hknotsk : s.vault.hasFile k = true → k ∉ keysOf skipped := by
      intro _ hmem
      have : (keysOf skipped ++ k :: keysOf rest).Nodup := by
        rw [← keysOf_cons k nv rest, ← keysOf_append]
        exact hnd
      have hdisj := (List.nodup_append.mp this).2.2
      exact hdisj hmem (List.mem_cons_self _ _)
    cases hok : s.vault.hasFile k with
    | true =>
      cases hnv : s.vault.hasFile nv with
      | true =>
        obtain ⟨s3, hs3⟩ := hcases.2.2.1 hok hnv
        rw [processLoop, hs3] at hpl
        exact absurd (congrArg Prod.snd hpl) (by simp)
      | false =>
        obtain ⟨s4, hs4, hs4map, hs4files⟩ := hcases.2.2.2 hok hnv
        rw [processLoop, hs4] at hpl
        have hker : eraseKey s.map k = skipped ++ rest := by
          rw [hmap, eraseKey_append_of_not_mem _ _ _ (hknotsk hok), eraseKey_cons_self]
        have hnd2 : (keysOf (skipped ++ rest)).Nodup := by
          have hsub : (skipped ++ rest).Sublist (skipped ++ (k, nv) :: rest) :=
            List.Sublist.append_left (List.sublist_cons_self _ _) skipped
          exact ((hsub.map Prod.fst).nodup) hnd
        have hkrest : k ∉ keysOf rest := by
          have : (keysOf skipped ++ k :: keysOf rest).Nodup := by
            rw [← keysOf_cons k nv rest, ← keysOf_append]
            exact hnd
          have := (List.nodup_append.mp this).2.1
          exact (List.nodup_cons.mp this).1
        refine ih skipped s4 (by rw [hs4map, hker]) hnd2 hsk ?_ s2 hpl
        intro e he
        rcases hL e (List.mem_cons_of_mem _ he) with h | h
        · exact Or.inl h
        · refine Or.inr ?_
          rw [hs4files]
          have hne : e.1 ≠ k := by
            intro hek
            apply hkrest
            rw [← hek]
            exact List.mem_map_of_mem Prod.fst he
          exact List.mem_cons_of_mem _ ((List.mem_erase_of_ne hne).mpr h)
    | false =>
      have hkseed : k = seed := by
        rcases hL (k, nv) (List.mem_cons_self _ _) with h | h
        · exact h
        · rw [(hasFile_iff s.vault k).mpr h] at hok
          exact absurd hok (by simp)
      have happ : skipped ++ (k, nv) :: rest = (skipped ++ [(k, nv)]) ++ rest := by
        simp
      have hsk2 : ∀ e ∈ skipped ++ [(k, nv)], e.1 = seed := by
        intro e he
        rcases List.mem_append.mp he with h | h
        · exact hsk e h
        · rw [List.mem_singleton.mp h]
          exact hkseed
      cases hnv : s.vault.hasFile nv with
      | false =>
        have hskip := hcases.1 hok hnv
        rw [processLoop, hskip] at hpl
        refine ih (skipped ++ [(k, nv)]) s (by rw [hmap, happ]) (by rw [← happ]; exact hnd)
          hsk2 ?_ s2 hpl
        intro e he
        exact hL e (List.mem_cons_of_mem _ he)
      | true =>
        obtain ⟨s5, hs5, hs5map, hs5v⟩ := hcases.2.1 hok hnv
        rw [processLoop, hs5] at hpl
        refine ih (skipped ++ [(k, nv)]) s5 (by rw [hs5map, hmap, happ])
          (by rw [← happ]; exact hnd) hsk2 ?_ s2 hpl
        intro e he
        rcases hL e (List.mem_cons_of_mem _ he) with h | h
        · exact Or.inl h
        · rw [hs5v]
          exact Or.inr h

/-- A non-empty map whose keys are all `seed` and pairwise distinct is a
single entry, so deleting `seed` empties it. -/
theorem eraseKey_of_all_seed (m : List (String × String)) (seed : String)
    (hall : ∀ e ∈ m, e.1 = seed) (hnd : (keysOf m).Nodup) :
    eraseKey m seed = [] := by
  cases m with
  | nil => rfl
  | cons e t =>
    obtain ⟨k, v⟩ := e
    have hk : k = seed := hall (k, v) (List.mem_cons_self _ _)
    subst hk
    rw [eraseKey_cons_self]
    cases t with
    | nil => rfl
    | cons e2 t2 =>
      obtain ⟨k2, v2⟩ := e2
      have hk2 : k2 = k := hall (k2, v2) (List.mem_cons_of_mem _ (List.mem_cons_self _ _))
      rw [keysOf_cons, keysOf_cons, List.nodup_cons] at hnd
      exact absurd (hk2 ▸ List.mem_cons_self k2 (keysOf t2)) (hk2 ▸ hnd.1)

/-- C4 counterexample: renaming `f.md` to `g.md` moves attachment folder
`F` to `G`; `G/b.png` is already occupied, so both pending attachments
`F/b.png` and `F/b 1.png` compute the same available target
`G/b 1.png`.  The second physical rename throws, `handleRename` ends
with an error, and its rename map is left non-empty — the leftover entry
then blocks every future cascade. -/
theorem handleRename_leftover_counterexample :
    (handleRename renvC4 (rstate vaultC4 []) "g.md" "f.md").1.map
      = [("F/b 1.png", "G/b 1.png")]
    ∧ (handleRename renvC4 (rstate vaultC4 []) "g.md" "f.md").2 = true := by
  constructor <;> rfl

/-- C4 amended: the rename map starts empty at the beginning of every
cascade (a cascade only starts when it is empty) and is empty again when
`handleRename` returns without error: each child entry is removed when
its file is moved, entries whose old path no longer exists are left and
the seed entry is deleted by the `finally` block.  When a physical
rename throws (its target occupied by another entry's identical computed
target), the remaining entries other than the seed stay in the map after
`handleRename` returns. -/
theorem handleRename_drains (env : REnv) (s : RState) (filePath oldPath : String)
    (h0 : s.map = [])
    (hok : (handleRename env s filePath oldPath).2 = false) :
    (handleRename env s filePath oldPath).1.map = [] := by
  unfold handleRename at hok ⊢
  rw [h0] at hok ⊢
  simp only [List.isEmpty_nil, Bool.not_true, Bool.false_eq_true, if_false, ite_false,
    not_true, ite_true, if_true] at hok ⊢
  rcases hpl : processLoop env (fillRenameMap env s filePath oldPath).map
      (fillRenameMap env s filePath oldPath) with ⟨s2, err⟩
  rw [hpl] at hok
  dsimp only at hok ⊢
  have herr : err = false := hok
  subst herr
  have hdrain := processLoop_drain env oldPath (fillRenameMap env s filePath oldPath).map []
    (fillRenameMap env s filePath oldPath) rfl
    (by
      simpa using fillRenameMap_keys_nodup env s filePath oldPath (by rw [h0]; exact List.nodup_nil))
    (by intro e he; simp at he)
    (by
      intro e he
      have hk := fillRenameMap_keys env s filePath oldPath e.1
        (List.mem_map_of_mem Prod.fst he)
      rcases hk with h | h | h
      · rw [h0] at h
        simp [keysOf] at h
      · exact Or.inl h
      · rw [(fillRenameMap_frame env s filePath oldPath).1]
        exact Or.inr h)
    s2 hpl
  exact eraseKey_of_all_seed s2.map oldPath hdrain.1 hdrain.2

theorem handleRename_drains_witness :
    (handleRename renv0 (rstate ⟨["b.md"], []⟩ []) "b.md" "a.md").1.map = [] :=
  handleRename_drains renv0 (rstate ⟨["b.md"], []⟩ []) "b.md" "a.md" rfl (by decide)

/-! ## Claim C2 — the contract of `fillRenameMap`

The claim is about concrete path arithmetic (re-rooting a child path
from the old attachment folder to the new one), so the split/join path
primitives need a small theory first. -/

theorem splitOnChar_ne_nil (sep : Char) (l : List Char) : splitOnChar sep l ≠ [] := by
  induction l with
  | nil => simp [splitOnChar]
  | cons x xs ih =>
    unfold splitOnChar
    dsimp only
    split
    · simp
    · split
      · simp
      · simp

theorem splitOnChar_append (sep : Char) (xs ys : List Char) :
    splitOnChar sep (xs ++ sep :: ys) = splitOnChar sep xs ++ splitOnChar sep ys := by
  induction xs with
  | nil => simp [splitOnChar]
  | cons x t ih =>
    have hcons : ∀ (zs : List Char), splitOnChar sep (x :: zs)
        = if x = sep then [] :: splitOnChar sep zs
          else match splitOnChar sep zs with
            | [] => [[x]]
            | h :: t2 => (x :: h) :: t2 := fun zs => rfl
    rw [List.cons_append, hcons (t ++ sep :: ys), hcons t, ih]
    by_cases hx : x = sep
    · rw [if_pos hx, if_pos hx]
      rfl
    · rw [if_neg hx, if_neg hx]
      cases hsplit : splitOnChar sep t with
      | nil => exact absurd hsplit (splitOnChar_ne_nil sep t)
      | cons h t2 => rfl

theorem joinWithChar_cons (sep : Char) (c : List Char) (cs : List (List Char)) (h : cs ≠ []) :
    joinWithChar sep (c :: cs) = c ++ sep :: joinWithChar sep cs := by
  cases cs with
  | nil => exact absurd rfl h
  | cons c2 t => rfl

theorem joinWithChar_splitOnChar (sep : Char) (l : List Char) :
    joinWithChar sep (splitOnChar sep l) = l := by
  induction l with
  | nil => rfl
  | cons x xs ih =>
    unfold splitOnChar
    dsimp only
    by_cases hx : x = sep
    · rw [if_pos hx]
      rw [joinWithChar_cons sep [] (splitOnChar sep xs) (splitOnChar_ne_nil sep xs), ih, hx]
      rfl
    · rw [if_neg hx]
      cases hsplit : splitOnChar sep xs with
      | nil => exact absurd hsplit (splitOnChar_ne_nil sep xs)
      | cons h t =>
        rw [hsplit] at ih
        cases t with
        | nil =>
          show x :: h = x :: xs
          rw [← ih]
          rfl
        | cons h2 t2 =>
          rw [joinWithChar_cons sep (x :: h) (h2 :: t2) (by simp)]
          rw [← ih, joinWithChar_cons sep h (h2 :: t2) (by simp)]
          rfl

theorem joinWithChar_dropLast (sep : Char) :
    ∀ (a b : List Char) (t : List (List Char)),
      joinWithChar sep (a :: b :: t)
        = joinWithChar sep ((a :: b :: t).dropLast) ++ sep :: (a :: b :: t).getLastD [] := by
  intro a b t
  induction t generalizing a b with
  | nil => rfl
  | cons c t2 ih =>
    have h1 : joinWithChar sep (a :: b :: c :: t2) = a ++ sep :: joinWithChar sep (b :: c :: t2) := rfl
    rw [h1, ih b c]
    have h2 : (a :: b :: c :: t2).dropLast = a :: (b :: c :: t2).dropLast := rfl
    rw [h2]
    have h3 : (b :: c :: t2).dropLast ≠ [] := by
      cases t2 <;> simp
    rw [joinWithChar_cons sep a _ h3]
    have h4 : (a :: b :: c :: t2).getLastD [] = (b :: c :: t2).getLastD [] := rfl
    rw [h4]
    simp

theorem strEq_of_data (s t : String) (h : s.data = t.data) : s = t := by
  cases s
  cases t
  exact congrArg String.mk h

theorem strNe_of_length (s t : String) (h : s.data.length ≠ t.data.length) : s ≠ t :=
  fun he => h (congrArg (fun x => x.data.length) he)

theorem isUnder_exists (d p : String) (h : isUnder d p = true) :
    ∃ t, p.data = d.data ++ '/' :: t := by
  unfold isUnder strStarts at h
  obtain ⟨t, ht⟩ := List.isPrefixOf_iff_prefix.mp h
  refine ⟨t, ?_⟩
  rw [← ht, String.data_append]
  simp

theorem relativeTo_data (d p : String) (t : List Char) (h : p.data = d.data ++ '/' :: t) :
    (relativeTo d p).data = t := by
  unfold relativeTo
  show (p.data.drop (d.data.length + 1)) = t
  rw [h]
  have : d.data ++ '/' :: t = (d.data ++ ['/']) ++ t := by simp
  rw [this]
  have hlen : (d.data ++ ['/']).length = d.data.length + 1 := by simp
  rw [← hlen]
  exact List.drop_left _ _

theorem segsOf_split (d p : String) (t : List Char) (h : p.data = d.data ++ '/' :: t) :
    segsOf p = segsOf d ++ splitOnChar '/' t := by
  unfold segsOf
  rw [h]
  exact splitOnChar_append '/' d.data t

theorem segsOf_rel (d p : String) (h : isUnder d p = true) :
    segsOf p = segsOf d ++ segsOf (relativeTo d p) := by
  obtain ⟨t, ht⟩ := isUnder_exists d p h
  rw [segsOf_split d p t ht]
  unfold segsOf
  rw [relativeTo_data d p t ht]

theorem getLastD_irrel (ys : List (List Char)) (h : ys ≠ []) (d1 d2 : List Char) :
    ys.getLastD d1 = ys.getLastD d2 := by
  cases ys with
  | nil => exact absurd rfl h
  | cons a t => rw [List.getLastD_cons, List.getLastD_cons]

theorem getLastD_append (xs ys : List (List Char)) (h : ys ≠ []) :
    ∀ d, (xs ++ ys).getLastD d = ys.getLastD d := by
  induction xs with
  | nil => intro d; rfl
  | cons a t ih =>
    intro d
    rw [List.cons_append, List.getLastD_cons, ih a]
    exact getLastD_irrel ys h a d

theorem nameOf_rel (d p : String) (h : isUnder d p = true) :
    nameOf p = nameOf (relativeTo d p) := by
  unfold nameOf
  have hne : segsOf (relativeTo d p) ≠ [] := splitOnChar_ne_nil '/' (relativeTo d p).data
  rw [segsOf_rel d p h, getLastD_append _ _ hne []]

theorem pathOk_rel (d p : String) (hu : isUnder d p = true) (h : pathOk p = true) :
    ∀ seg ∈ segsOf (relativeTo d p), seg ≠ [] ∧ seg ≠ ['.'] := by
  intro seg hseg
  unfold pathOk at h
  rw [List.all_eq_true] at h
  have hmem : seg ∈ segsOf p := by
    rw [segsOf_rel d p hu]
    exact List.mem_append_right _ hseg
  have := h seg hmem
  simp only [decide_eq_true_eq] at this
  constructor
  · intro he
    subst he
    exact this.1 rfl
  · exact this.2

theorem joinWithChar_ne_dot (L : List (List Char)) (hne : L ≠ [])
    (hwf : ∀ seg ∈ L, seg ≠ [] ∧ seg ≠ ['.']) : joinWithChar '/' L ≠ ['.'] := by
  cases L with
  | nil => exact absurd rfl hne
  | cons a t =>
    cases t with
    | nil => exact (hwf a (List.mem_cons_self _ _)).2
    | cons b t2 =>
      rw [joinWithChar_cons _ _ _ (by simp)]
      intro h
      have hlen := congrArg List.length h
      simp at hlen
      have ha := (hwf a (List.mem_cons_self _ _)).1
      have : 1 ≤ a.length := List.length_pos.mpr ha
      omega

theorem mk_ne_dot (x : List Char) (hx : x ≠ ['.']) : (⟨x⟩ : String) ≠ "." :=
  fun h => hx (congrArg String.data h)

theorem cat_slash_ne_empty (a b : String) : a ++ "/" ++ b ≠ "" := by
  apply strNe_of_length
  simp [String.data_append]

theorem joinPath_reroot (A rel : String) (hA : A ≠ "")
    (hwf : ∀ seg ∈ segsOf rel, seg ≠ [] ∧ seg ≠ ['.']) :
    joinPath (joinPath A (dirname rel)) (nameOf rel) = A ++ "/" ++ rel := by
  have hS3 : joinWithChar '/' (segsOf rel) = rel.data := joinWithChar_splitOnChar '/' rel.data
  rcases hL : segsOf rel with _ | ⟨x, t⟩
  · exact absurd hL (splitOnChar_ne_nil '/' rel.data)
  cases t with
  | nil =>
    have hd : dirname rel = "." := by
      unfold dirname
      rw [hL]
    have hn : nameOf rel = ⟨x⟩ := by
      unfold nameOf
      rw [hL]
      rw [List.getLastD_cons]
      rfl
    have hx := hwf x (by rw [hL]; exact List.mem_cons_self _ _)
    have hreldata : rel.data = x := by
      rw [← hS3, hL]
      rfl
    rw [hd, hn]
    unfold joinPath
    rw [if_pos rfl, if_neg (mk_ne_dot x hx.2), if_neg hA]
    have hxr : (⟨x⟩ : String) = rel := strEq_of_data _ _ (by rw [hreldata])
    rw [hxr]
  | cons y t2 =>
    have hd : dirname rel = ⟨joinWithChar '/' ((x :: y :: t2).dropLast)⟩ := by
      unfold dirname
      rw [hL]
    have hn : nameOf rel = ⟨(x :: y :: t2).getLastD []⟩ := by
      unfold nameOf
      rw [hL]
    have hwf2 : ∀ seg ∈ (x :: y :: t2), seg ≠ [] ∧ seg ≠ ['.'] := by
      rw [← hL]
      exact hwf
    have hdropne : (x :: y :: t2).dropLast ≠ [] := by cases t2 <;> simp
    have hdot : joinWithChar '/' ((x :: y :: t2).dropLast) ≠ ['.'] :=
      joinWithChar_ne_dot _ hdropne (fun seg hs => hwf2 seg (List.dropLast_subset _ hs))
    have hlast_mem : (x :: y :: t2).getLastD [] ∈ x :: y :: t2 := by
      rw [List.getLastD_cons]
      exact List.getLastD_mem_cons _ _
    have hnamedot : (⟨(x :: y :: t2).getLastD []⟩ : String) ≠ "." :=
      mk_ne_dot _ (hwf2 _ hlast_mem).2
    rw [hd, hn]
    have h1 : joinPath A ⟨joinWithChar '/' ((x :: y :: t2).dropLast)⟩
        = A ++ "/" ++ ⟨joinWithChar '/' ((x :: y :: t2).dropLast)⟩ := by
      unfold joinPath
      rw [if_neg (mk_ne_dot _ hdot), if_neg hA]
    rw [h1]
    have h2 : joinPath (A ++ "/" ++ ⟨joinWithChar '/' ((x :: y :: t2).dropLast)⟩)
          ⟨(x :: y :: t2).getLastD []⟩
        = (A ++ "/" ++ ⟨joinWithChar '/' ((x :: y :: t2).dropLast)⟩) ++ "/"
            ++ ⟨(x :: y :: t2).getLastD []⟩ := by
      unfold joinPath
      rw [if_neg hnamedot, if_neg (cat_slash_ne_empty _ _)]
    rw [h2]
    apply strEq_of_data
    have hS4 := joinWithChar_dropLast '/' x y t2
    have hrel : rel.data
        = joinWithChar '/' ((x :: y :: t2).dropLast) ++ '/' :: (x :: y :: t2).getLastD [] := by
      rw [hL] at hS3
      rw [← hS3, hS4]
    simp only [String.data_append, hrel]
    simp

theorem joinPath_ne_empty (a b : String) (ha : a ≠ "") : joinPath a b ≠ "" := by
  unfold joinPath
  by_cases hb : b = "."
  · rw [if_pos hb]
    exact ha
  · rw [if_neg hb, if_neg ha]
    exact cat_slash_ne_empty a b

theorem nameOf_ne_dot (c : String) (h : pathOk c = true) : nameOf c ≠ "." := by
  unfold nameOf
  apply mk_ne_dot
  unfold pathOk at h
  rw [List.all_eq_true] at h
  have hne : segsOf c ≠ [] := splitOnChar_ne_nil '/' c.data
  have hmem : (segsOf c).getLastD [] ∈ segsOf c := by
    cases hcase : segsOf c with
    | nil => exact absurd hcase hne
    | cons a t =>
      rw [List.getLastD_cons]
      exact List.getLastD_mem_cons _ _
  have := h _ hmem
  simp only [decide_eq_true_eq] at this
  exact this.2

theorem reroot_ne_child (oldAF newAF c : String) (hu : isUnder oldAF c = true)
    (hne : oldAF ≠ newAF) (hAF : newAF ≠ "") (hwfc : pathOk c = true) :
    c ≠ joinPath (joinPath newAF (dirname (relativeTo oldAF c))) (nameOf c) := by
  obtain ⟨t, ht⟩ := isUnder_exists oldAF c hu
  have hreldata := relativeTo_data oldAF c t ht
  have hwfrel := pathOk_rel oldAF c hu hwfc
  rw [nameOf_rel oldAF c hu, joinPath_reroot newAF (relativeTo oldAF c) hAF hwfrel]
  intro he
  have hd := congrArg String.data he
  rw [ht, String.data_append, String.data_append, hreldata] at hd
  have hsl : newAF.data ++ "/".data ++ t = newAF.data ++ '/' :: t := by simp
  rw [hsl] at hd
  exact hne (strEq_of_data _ _ (List.append_cancel_right hd))

theorem joinPath_stem_ext (a st ex nm : String) (ha : a ≠ "") (hst : st ≠ ".")
    (hnm : nm = st ++ "." ++ ex) (hnmd : nm ≠ ".") :
    joinPath a st ++ "." ++ ex = joinPath a nm := by
  unfold joinPath
  rw [if_neg hst, if_neg ha, if_neg hnmd, if_neg ha, hnm]
  apply strEq_of_data
  simp [String.data_append, List.append_assoc]

theorem foldl_lookup_frame (g : List (String × String) → String → List (String × String))
    (hg : ∀ m a k, k ≠ a → lookupEntry (g m a) k = lookupEntry m k) :
    ∀ (L : List String) (m : List (String × String)) (k : String),
      k ∉ L → lookupEntry (L.foldl g m) k = lookupEntry m k := by
  intro L
  induction L with
  | nil => intro m k _; rfl
  | cons a t ih =>
    intro m k hk
    rw [List.mem_cons] at hk
    push_neg at hk
    rw [List.foldl_cons, ih (g m a) k hk.2, hg m a k hk.1]

theorem foldl_lookup_value (g : List (String × String) → String → List (String × String))
    (val : String → String) (q : String → Prop)
    (hg1 : ∀ m a, q a → lookupEntry (g m a) a = some (val a))
    (hg2 : ∀ m a k, k ≠ a → lookupEntry (g m a) k = lookupEntry m k) :
    ∀ (L : List String) (m : List (String × String)) (c : String),
      q c → (lookupEntry m c = some (val c) ∨ c ∈ L) →
      lookupEntry (L.foldl g m) c = some (val c) := by
  intro L
  induction L with
  | nil =>
    intro m c _ hd
    rcases hd with h | h
    · exact h
    · simp at h
  | cons a t ih =>
    intro m c hq hd
    rw [List.foldl_cons]
    by_cases hac : c = a
    · subst hac
      exact ih (g m c) c hq (Or.inl (hg1 m c hq))
    · rcases hd with h | h
      · exact ih (g m a) c hq (Or.inl ((hg2 m a c hac).trans h))
      · rcases List.mem_cons.mp h with h2 | h2
        · exact absurd h2 hac
        · exact ih (g m a) c hq (Or.inr h2)

theorem foldl_keys_memP (P : String → Prop)
    (g : List (String × String) → String → List (String × String))
    (hg : ∀ m a k, k ∈ keysOf (g m a) → (k = a ∧ P a) ∨ k ∈ keysOf m) :
    ∀ (L : List String) (m : List (String × String)) (k : String),
      k ∈ keysOf (L.foldl g m) → k ∈ keysOf m ∨ ∃ a ∈ L, k = a ∧ P a := by
  intro L
  induction L with
  | nil => exact fun m k h => Or.inl h
  | cons a t ih =>
    intro m k h
    rcases ih (g m a) k h with h2 | h2
    · rcases hg m a k h2 with h3 | h3
      · exact Or.inr ⟨a, List.mem_cons_self a t, h3⟩
      · exact Or.inl h3
    · obtain ⟨a2, ha2, hk⟩ := h2
      exact Or.inr ⟨a2, List.mem_cons_of_mem _ ha2, hk⟩

theorem strConcat_length_le (l : List String) (f : String) (h : f ∈ l) :
    f.data.length ≤ (strConcat l).data.length := by
  induction l with
  | nil => simp at h
  | cons a t ih =>
    have hstep : (strConcat (a :: t)).data.length
        = a.data.length + (strConcat t).data.length := by
      show (a ++ strConcat t).data.length = _
      rw [String.data_append, List.length_append]
    rcases List.mem_cons.mp h with h | h
    · subst h
      omega
    · have := ih h
      omega

theorem freshJoin_not_mem (v : Vault) (p : String) : freshJoin v p ∉ v.files := by
  intro hmem
  have hle := strConcat_length_le v.files (freshJoin v p) hmem
  unfold freshJoin at hle
  rw [String.data_append, String.data_append, List.length_append, List.length_append] at hle
  have h1 : ("#" : String).data.length = 1 := rfl
  omega

/-- C2: the contract of `fillRenameMap`.  (1) The map holds the seed
entry `oldPath → filePath`.  (2) Every key is an old key, the seed, or a
non-note file under the old attachment folder — no nested note is ever
added.  (3) For a renamed note whose old attachment folder exists and
differs from the new one, every non-note file under the old folder gets
an entry whose value is the external `getAvailablePath` applied to its
re-rooted position; the value never collides with an existing file
(`hF`), and when the plainly re-rooted path is unoccupied the value is
exactly that re-rooted path (`hA`, for file names of the usual
`stem.ext` shape).  `hA`/`hF` are the contract of the external
`app.vault.getAvailablePath`; `pathOk` states that the path has no
empty or `"."` segment, true of every real vault path. -/
theorem fillRenameMap_contract (env : REnv) (s : RState) (filePath oldPath : String)
    (hA : ∀ v b e, v.hasFile (b ++ "." ++ e) = false → env.avail v b e = b ++ "." ++ e)
    (hF : ∀ v b e, env.avail v b e ∉ v.files)
    (hOld : oldPath ∉ s.vault.files) :
    lookupEntry (fillRenameMap env s filePath oldPath).map oldPath = some filePath
    ∧ (∀ k ∈ keysOf (fillRenameMap env s filePath oldPath).map,
        k ∈ keysOf s.map ∨ k = oldPath
        ∨ (isNote k = false ∧ k ∈ s.vault.files
            ∧ isUnder (env.attFolder oldPath) k = true))
    ∧ (isNote filePath = true →
       s.vault.hasFolder (env.attFolder oldPath) = true →
       env.attFolder oldPath ≠ env.attFolder filePath →
       env.attFolder filePath ≠ "" →
       ∀ c ∈ s.vault.files, isUnder (env.attFolder oldPath) c = true →
         isNote c = false → pathOk c = true →
         lookupEntry (fillRenameMap env s filePath oldPath).map c
             = some (env.avail s.vault
                 (joinPath (joinPath (env.attFolder filePath)
                   (dirname (relativeTo (env.attFolder oldPath) c))) (stemOf c)) (extOf c))
           ∧ env.avail s.vault
               (joinPath (joinPath (env.attFolder filePath)
                 (dirname (relativeTo (env.attFolder oldPath) c))) (stemOf c)) (extOf c)
             ∉ s.vault.files
           ∧ (stemOf c ≠ "." →
              nameOf c = stemOf c ++ "." ++ extOf c →
              joinPath (joinPath (env.attFolder filePath)
                (dirname (relativeTo (env.attFolder oldPath) c))) (nameOf c) ∉ s.vault.files →
              lookupEntry (fillRenameMap env s filePath oldPath).map c
                = some (joinPath (joinPath (env.attFolder filePath)
                    (dirname (relativeTo (env.attFolder oldPath) c))) (nameOf c)))) := by
  have hg2 : ∀ (m : List (String × String)) (a k : String), k ≠ a →
      lookupEntry ((fun m c =>
        if isNote c then m
        else
          let rel := relativeTo (env.attFolder oldPath) c
          let newDir := joinPath (env.attFolder filePath) (dirname rel)
          let newChildPath := joinPath newDir (nameOf c)
          if c = newChildPath then m
          else setEntry m c
            (env.avail s.vault (joinPath newDir (stemOf c)) (extOf c))) m a) k
        = lookupEntry m k := by
    intro m a k hk
    dsimp only
    split
    · rfl
    split
    · rfl
    · exact lookup_setEntry_other _ _ _ _ hk
  refine ⟨?_, ?_, ?_⟩
  · have hm0 : lookupEntry (setEntry s.map oldPath filePath) oldPath = some filePath :=
      lookup_setEntry_self _ _ _
    dsimp only [fillRenameMap]
    split
    · exact hm0
    split
    · exact hm0
    split
    · exact hm0
    · rw [foldl_lookup_frame _ hg2 _ _ oldPath
        (fun hmem => hOld (List.mem_of_mem_filter hmem))]
      exact hm0
  · intro k hk
    have hseed : k ∈ keysOf (setEntry s.map oldPath filePath) →
        k ∈ keysOf s.map ∨ k = oldPath
        ∨ (isNote k = false ∧ k ∈ s.vault.files
            ∧ isUnder (env.attFolder oldPath) k = true) := by
      intro h
      rcases keysOf_setEntry_mem _ _ _ _ h with h | h
      · exact Or.inr (Or.inl h)
      · exact Or.inl h
    dsimp only [fillRenameMap] at hk
    split at hk
    · exact hseed hk
    split at hk
    · exact hseed hk
    split at hk
    · exact hseed hk
    · have hgP : ∀ (m : List (String × String)) (a k2 : String),
          k2 ∈ keysOf (if isNote a then m
            else
              if a = joinPath (joinPath (env.attFolder filePath)
                  (dirname (relativeTo (env.attFolder oldPath) a))) (nameOf a) then m
              else setEntry m a
                (env.avail s.vault (joinPath (joinPath (env.attFolder filePath)
                  (dirname (relativeTo (env.attFolder oldPath) a))) (stemOf a)) (extOf a))) →
          (k2 = a ∧ isNote a = false) ∨ k2 ∈ keysOf m := by
        intro m a k2 h
        split at h
        · exact Or.inr h
        · rename_i hnote
          split at h
          · exact Or.inr h
          · rcases keysOf_setEntry_mem _ _ _ _ h with h2 | h2
            · refine Or.inl ⟨h2, ?_⟩
              revert hnote
              cases isNote a <;> simp
            · exact Or.inr h2
      rcases foldl_keys_memP (fun a => isNote a = false) _ hgP _ _ k hk with h | h
      · exact hseed h
      · obtain ⟨a, ha, hka, hnote⟩ := h
        subst hka
        have := List.mem_filter.mp ha
        exact Or.inr (Or.inr ⟨hnote, this.1, by simpa using this.2⟩)
  · intro hNote hFold hneq hAF c hc hu hcnote hwfc
    have hfill : (fillRenameMap env s filePath oldPath).map
        = (s.vault.files.filter (fun c2 => isUnder (env.attFolder oldPath) c2)).foldl
            (fun m c2 =>
              if isNote c2 then m
              else
                let rel := relativeTo (env.attFolder oldPath) c2
                let newDir := joinPath (env.attFolder filePath) (dirname rel)
                let newChildPath := joinPath newDir (nameOf c2)
                if c2 = newChildPath then m
                else setEntry m c2
                  (env.avail s.vault (joinPath newDir (stemOf c2)) (extOf c2)))
            (setEntry s.map oldPath filePath) := by
      dsimp only [fillRenameMap]
      rw [if_neg (by rw [hNote]; simp), if_neg (by rw [hFold]; simp), if_neg hneq]
    have hner : c ≠ joinPath (joinPath (env.attFolder filePath)
        (dirname (relativeTo (env.attFolder oldPath) c))) (nameOf c) :=
      reroot_ne_child (env.attFolder oldPath) (env.attFolder filePath) c hu hneq hAF hwfc
    have hlook : lookupEntry (fillRenameMap env s filePath oldPath).map c
        = some (env.avail s.vault
            (joinPath (joinPath (env.attFolder filePath)
              (dirname (relativeTo (env.attFolder oldPath) c))) (stemOf c)) (extOf c)) := by
      rw [hfill]
      refine foldl_lookup_value _
        (fun c2 => env.avail s.vault
          (joinPath (joinPath (env.attFolder filePath)
            (dirname (relativeTo (env.attFolder oldPath) c2))) (stemOf c2)) (extOf c2))
        (fun c2 => isNote c2 = false ∧ c2 ≠ joinPath (joinPath (env.attFolder filePath)
          (dirname (relativeTo (env.attFolder oldPath) c2))) (nameOf c2))
        ?_ hg2 _ _ c ⟨hcnote, hner⟩
        (Or.inr (List.mem_filter.mpr ⟨hc, by simpa using hu⟩))
      intro m a ⟨ha1, ha2⟩
      dsimp only
      rw [if_neg (by rw [ha1]; simp), if_neg ha2]
      exact lookup_setEntry_self _ _ _
    refine ⟨hlook, hF _ _ _, ?_⟩
    intro hstem hname hfree
    rw [hlook]
    congr 1
    have hstep := joinPath_stem_ext
      (joinPath (env.attFolder filePath) (dirname (relativeTo (env.attFolder oldPath) c)))
      (stemOf c) (extOf c) (nameOf c)
      (joinPath_ne_empty _ _ hAF) hstem hname (nameOf_ne_dot c hwfc)
    rw [← hstep] at hfree ⊢
    exact hA s.vault _ _ ((hasFile_false_iff s.vault _).mpr hfree)

theorem fillRenameMap_contract_witness :
    lookupEntry (fillRenameMap fenvC2 sC2 "new.md" "old.md").map "OF/b.png"
      = some (joinPath (joinPath "NF" (dirname (relativeTo "OF" "OF/b.png")))
          (nameOf "OF/b.png")) := by
  have hA : ∀ (v : Vault) (b e : String), v.hasFile (b ++ "." ++ e) = false →
      fenvC2.avail v b e = b ++ "." ++ e := by
    intro v b e h
    show (if v.hasFile (b ++ "." ++ e) = true then freshJoin v (b ++ "." ++ e)
      else b ++ "." ++ e) = b ++ "." ++ e
    rw [h]
    simp
  have hF : ∀ (v : Vault) (b e : String), fenvC2.avail v b e ∉ v.files := by
    intro v b e
    show (if v.hasFile (b ++ "." ++ e) = true then freshJoin v (b ++ "." ++ e)
      else b ++ "." ++ e) ∉ v.files
    by_cases h : v.hasFile (b ++ "." ++ e) = true
    · rw [if_pos h]
      exact freshJoin_not_mem v _
    · rw [if_neg h]
      have hff : v.hasFile (b ++ "." ++ e) = false := by
        revert h
        cases v.hasFile (b ++ "." ++ e) <;> simp
      exact (hasFile_false_iff v _).mp hff
  have h := (fillRenameMap_contract fenvC2 sC2 "new.md" "old.md" hA hF (by decide)).2.2
    (by decide) (by decide) (by decide) (by decide)
    "OF/b.png" (by decide) (by decide) (by decide) (by decide)
  exact h.2.2 (by decide) (by decide) (by decide)

end CAL
